import Mathlib

/-!
Shallow embedding of `src/refactor_imports.py` (a tool that rewrites
barrel-file imports in a TypeScript tree into direct imports).

Modelling conventions:
* Text is `List Char`.  The two Python regexes are embedded as deterministic
  character-level matchers; for both patterns every quantifier's backtracking
  is determinate except the `.*` in the import pattern, whose greedy search is
  modelled by the existence scan `tailOK`.
* Python's `\s`/`str.strip()` are modelled over their ASCII whitespace subset.
* Filesystem paths are modelled as lists of components (`List (List Char)`);
  `os.path.join/normpath/dirname/relpath` become the corresponding component
  operations, parameterised by the host separator character `sep` used when a
  component list is rendered back to a string (`os.sep`).
* A Python `dict` is an association list with insertion order and first-match
  lookup, updated in place (`dictInsert`, `dictAppend`).
* `sorted` on strings is modelled by insertion sort over code-point
  lexicographic order (same output: comparison is total and equal keys are
  identical strings).
* File I/O: `process_file` is modelled as lines-in/lines-out plus a modified
  flag (write happens iff the flag is set) and the list of emitted warnings.
-/

/-- ASCII subset of Python regex `\s` / `str.strip()` whitespace. -/
def isPySpace (c : Char) : Bool :=
  c = ' ' || c = '\t' || c = '\n' || c = '\r' || c = '\x0b' || c = '\x0c'

/-- Match a literal: `dropLit l cs` returns the rest of `cs` after the prefix `l`. -/
def dropLit : List Char → List Char → Option (List Char)
  | [], cs => some cs
  | _ :: _, [] => none
  | l :: ls, c :: cs => if c = l then dropLit ls cs else none

/-- Regex `\s+` (greedy, at least one whitespace character). -/
def ws1 : List Char → Option (List Char)
  | [] => none
  | c :: cs => if isPySpace c then some (cs.dropWhile isPySpace) else none

/-- A keyword followed by `\s+`, e.g. regex `export\s+` / `import\s+`. -/
def afterKw (kw : List Char) (cs : List Char) : Option (List Char) :=
  (dropLit kw cs).bind ws1

/-- Regex `(?:type\s+)?`: consume `type` plus whitespace if both are present,
otherwise leave the input unchanged (the regex then requires `{`, so skipping
the optional group when it would match can never help). -/
def afterOptType (cs : List Char) : List Char :=
  match dropLit "type".data cs with
  | some cs2 =>
    match ws1 cs2 with
    | some cs3 => cs3
    | none => cs
  | none => cs

/-- Regex `\{([^}]+)\}`: returns the captured group and the rest.  The char
after the maximal `[^}]*` run is `}` whenever one exists, so only nonemptiness
and existence of the closing brace are checked. -/
def braceGroup (cs : List Char) : Option (List Char × List Char) :=
  match cs with
  | [] => none
  | c :: cs1 =>
    if c = '\x7b' then
      let g := cs1.takeWhile (fun d => ¬ d = '\x7d')
      let rest := cs1.dropWhile (fun d => ¬ d = '\x7d')
      if rest = [] then none
      else if g = [] then none else some (g, rest.tail)
    else none

/-- Regex `\s+from\s+`. -/
def fromClause (cs : List Char) : Option (List Char) :=
  (ws1 cs).bind fun c1 => (dropLit "from".data c1).bind ws1

def isQuote (c : Char) : Bool := c = '"' || c = '\''

/-- Regex `["\']([^"\']+)["\'];`: a quote, the captured nonempty path, a quote
(the two quote characters need not agree), and the terminating semicolon. -/
def quotedPath (cs : List Char) : Option (List Char × List Char) :=
  match cs with
  | [] => none
  | q :: cs1 =>
    if isQuote q then
      let p := cs1.takeWhile (fun d => !(isQuote d))
      let rest := cs1.dropWhile (fun d => !(isQuote d))
      if rest.head?.any isQuote then
        if p = [] then none
        else if rest.tail.head? = some ';' then some (p, rest.tail.tail)
        else none
      else none
    else none

/-- One attempted match of
`export\s+(?:type\s+)?\{([^}]+)\}\s+from\s+["\']([^"\']+)["\'];`
at the start of `cs`; on success returns (symbols group, path group, rest). -/
def matchExportAt (cs : List Char) : Option (List Char × List Char × List Char) :=
  match afterKw "export".data cs with
  | none => none
  | some cs1 =>
    match braceGroup (afterOptType cs1) with
    | none => none
    | some (g, cs2) =>
      match fromClause cs2 with
      | none => none
      | some cs3 =>
        match quotedPath cs3 with
        | none => none
        | some (p, rest) => some (g, p, rest)

/-- The `re.findall` scan: non-overlapping matches, left to right.  A successful
match always consumes at least one character, so fuel `cs.length` never runs
out before the scan finishes. -/
def findallExportGo : Nat → List Char → List (List Char × List Char)
  | 0, _ => []
  | _ + 1, [] => []
  | fuel + 1, c :: cs =>
    match matchExportAt (c :: cs) with
    | some (g, p, rest) => (g, p) :: findallExportGo fuel rest
    | none => findallExportGo fuel cs

def findallExport (cs : List Char) : List (List Char × List Char) :=
  findallExportGo cs.length cs

/-- The literal tail `"imports"` + quote + `";"` that the pattern requires
after its `.*`. -/
def startsWithIQS (cs : List Char) : Bool :=
  ("imports".data ++ ['"', ';']).isPrefixOf cs ||
  ("imports".data ++ ['\'', ';']).isPrefixOf cs

/-- Regex `.*imports["\'];` (unanchored remainder allowed after it): does some
split `pre ++ "imports" ++ quote ++ ";" ++ _` exist with `pre` free of
newlines (`.` does not match a newline)? -/
def tailOK : List Char → Bool
  | [] => false
  | c :: cs => startsWithIQS (c :: cs) || ((c != '\n') && tailOK cs)

/-- Substring occurrence of `"imports" + quote + ";"` anywhere. -/
def hasIQS : List Char → Bool
  | [] => false
  | c :: cs => startsWithIQS (c :: cs) || hasIQS cs

/-- One attempted match of
`import\s+(?:type\s+)?\{([^}]+)\}\s+from\s+["\'].*imports["\'];`
at the start of `cs`; on success returns the symbols group. -/
def matchImportAt (cs : List Char) : Option (List Char) :=
  match afterKw "import".data cs with
  | none => none
  | some cs1 =>
    match braceGroup (afterOptType cs1) with
    | none => none
    | some (g, cs2) =>
      match fromClause cs2 with
      | none => none
      | some cs3 =>
        if cs3.head?.any isQuote then (if tailOK cs3.tail then some g else none) else none

/-- The `re.search` over a line: try each start position left to right. -/
def searchImport : List Char → Option (List Char)
  | [] => none
  | c :: cs =>
    match matchImportAt (c :: cs) with
    | some g => some g
    | none => searchImport cs

/-- Python `str.split(sep)` for a one-character separator. -/
def splitOnChar (sep : Char) : List Char → List (List Char)
  | [] => [[]]
  | c :: cs =>
    if c = sep then [] :: splitOnChar sep cs
    else
      match splitOnChar sep cs with
      | g :: gs => (c :: g) :: gs
      | [] => [[c]]

/-- Python `str.strip()` (ASCII whitespace subset). -/
def pyStrip (cs : List Char) : List Char :=
  ((cs.dropWhile isPySpace).reverse.dropWhile isPySpace).reverse

/-- Python `[s.strip() for s in symbols_str.split(',') if s.strip()]`. -/
def splitSyms (cs : List Char) : List (List Char) :=
  ((splitOnChar ',' cs).map pyStrip).filter (fun s => ¬ s = [])

/-- Rest after the first occurrence of sublist `pat` (`none` if absent);
`isSome` is Python's `pat in s`. -/
def afterSubOpt (pat : List Char) : List Char → Option (List Char)
  | [] => none
  | c :: cs =>
    if pat.isPrefixOf (c :: cs) then some (List.drop pat.length (c :: cs))
    else afterSubOpt pat cs

def containsSub (pat cs : List Char) : Bool := (afterSubOpt pat cs).isSome

/-- Everything before the first occurrence of `pat` (all of the input if `pat`
does not occur). -/
def beforeSub (pat : List Char) : List Char → List Char
  | [] => []
  | c :: cs => if pat.isPrefixOf (c :: cs) then [] else c :: beforeSub pat cs

/-- Python `symbol.split(' as ')[1].strip()` when `' as ' in symbol`, else the symbol
unchanged: element 1 of the split is the text between the first and the second
occurrence of `' as '` (or the end). -/
def renameLocal (sym : List Char) : List Char :=
  match afterSubOpt " as ".data sym with
  | some rest => pyStrip (beforeSub " as ".data rest)
  | none => sym

/-- Python dict assignment `m[k] = v`: overwrite in place, else append. -/
def dictInsert (m : List (List Char × List Char)) (k v : List Char) :
    List (List Char × List Char) :=
  if m.any (fun kv => kv.1 = k) then
    m.map (fun kv => if kv.1 = k then (k, v) else kv)
  else m ++ [(k, v)]

/-- Python dict lookup (keys are unique in a real dict; first match). -/
def lookupAssoc (m : List (List Char × List Char)) (k : List Char) : Option (List Char) :=
  match m with
  | [] => none
  | kv :: m' => if kv.1 = k then some kv.2 else lookupAssoc m' k

/-- The function `parse_imports_ts`: build the export index from the barrel file text. -/
def parse_imports_ts (content : List Char) : List (List Char × List Char) :=
  (findallExport content).foldl
    (fun m gp =>
      (splitSyms gp.1).foldl (fun m' sym => dictInsert m' (renameLocal sym) gp.2) m)
    []

/-- One step of `os.path.normpath`: drop empty and `.` components, resolve
`..` against the previous component (at the root, `..` is dropped). -/
def normStep (acc : List (List Char)) (c : List Char) : List (List Char) :=
  if c = [] then acc
  else if c = ['.'] then acc
  else if c = ['.', '.'] then acc.dropLast
  else acc ++ [c]

/-- Python `os.path.normpath` on the component list of an absolute path. -/
def normpathComps (comps : List (List Char)) : List (List Char) :=
  comps.foldl normStep []

/-- Length of the longest common component run (as in `os.path.relpath`). -/
def commonLen : List (List Char) → List (List Char) → Nat
  | a :: as, b :: bs => if a = b then commonLen as bs + 1 else 0
  | _, _ => 0

/-- Python `os.path.relpath(target, start)` on component lists. -/
def relpathComps (target start : List (List Char)) : List (List Char) :=
  let i := commonLen target start
  let res := List.replicate (start.length - i) ['.', '.'] ++ target.drop i
  if res = [] then [['.']] else res

/-- Python `str.replace(a, b)` for one-character arguments. -/
def pyReplaceChar (a b : Char) (cs : List Char) : List Char :=
  cs.map (fun c => if c = a then b else c)

/-- The function `get_relative_path` up to (and including) the separator normalisation
`rel_path.replace(os.sep, '/')`.  `SRC` is the component list of `SRC_DIR`,
`from_file` the component list of the importing file's absolute path,
`to_rel` the declared path token (slash-separated). -/
def relPathString (sep : Char) (SRC from_file : List (List Char)) (to_rel : List Char) :
    List Char :=
  let to_abs := normpathComps (SRC ++ splitOnChar '/' to_rel)
  let from_dir := from_file.dropLast
  let rel := relpathComps to_abs from_dir
  pyReplaceChar sep '/' (List.intercalate [sep] rel)

/-- The function `get_relative_path`: separator-normalised relative path, prefixed with
`./` unless it already starts with `.`. -/
def get_relative_path (sep : Char) (SRC from_file : List (List Char)) (to_rel : List Char) :
    List Char :=
  let r := relPathString sep SRC from_file to_rel
  if r.head? = some '.' then r else '.' :: '/' :: r

/-- Strict code-point lexicographic order on strings (Python `<`). -/
def lexLt : List Char → List Char → Bool
  | [], [] => false
  | [], _ :: _ => true
  | _ :: _, [] => false
  | a :: as, b :: bs =>
    if a.val < b.val then true
    else if a = b then lexLt as bs
    else false

def insertSorted (x : List Char) : List (List Char) → List (List Char)
  | [] => [x]
  | y :: ys => if lexLt y x then y :: insertSorted x ys else x :: y :: ys

/-- Python `sorted` on a list of strings (insertion sort; comparison is total
and equal keys are identical, so the result agrees with any stable sort). -/
def sortSyms : List (List Char) → List (List Char)
  | [] => []
  | x :: xs => insertSorted x (sortSyms xs)

/-- Python `f'{import_kw} {{ {syms_str} }} from "{path}";\n'` with
`syms_str = ', '.join(sorted(syms))`. -/
def buildLine (isTy : Bool) (path : List Char) (syms : List (List Char)) : List Char :=
  (if isTy then "import type".data else "import".data) ++ " \x7b ".data ++
    List.intercalate ", ".data (sortSyms syms) ++ " \x7d from ".data ++
    '"' :: path ++ '"' :: ';' :: '\n' :: []

/-- Python dict-of-lists update `m[k].append(v)` (creating `m[k] = [v]`). -/
def dictAppend (m : List (List Char × List (List Char))) (k : List Char) (v : List Char) :
    List (List Char × List (List Char)) :=
  if m.any (fun kv => kv.1 = k) then
    m.map (fun kv => if kv.1 = k then (kv.1, kv.2 ++ [v]) else kv)
  else m ++ [(k, [v])]

/-- The per-symbol loop of `process_file`: group the known symbols by resolved
path in a dict (`new_imports[path].append(symbol)`) and collect a warning for
each unknown one, in order. -/
def groupSymsGo (R : List Char → Option (List Char)) :
    List (List Char × List (List Char)) → List (List Char) → List (List Char) →
    List (List Char × List (List Char)) × List (List Char)
  | m, w, [] => (m, w)
  | m, w, s :: ss =>
    match R s with
    | none => groupSymsGo R m (w ++ [s]) ss
    | some p => groupSymsGo R (dictAppend m p s) w ss

/-- Resolution of one symbol: export-index lookup then `get_relative_path`. -/
def resolveSym (sep : Char) (SRC : List (List Char)) (em : List (List Char × List Char))
    (file : List (List Char)) (s : List Char) : Option (List Char) :=
  (lookupAssoc em s).map (fun t => get_relative_path sep SRC file t)

/-- The matched-line branch of `process_file`'s loop: `none` when the line does
not match; otherwise the freshly built replacement lines and the warned
(unknown) symbols. -/
def rewriteLine (sep : Char) (SRC : List (List Char)) (em : List (List Char × List Char))
    (file : List (List Char)) (line : List Char) :
    Option (List (List Char) × List (List Char)) :=
  match searchImport line with
  | none => none
  | some g =>
    let syms := splitSyms g
    let gw := groupSymsGo (resolveSym sep SRC em file) [] [] syms
    let isTy := containsSub "import type".data line
    some (gw.1.map (fun pg => buildLine isTy pg.1 pg.2), gw.2)

structure FileResult where
  newLines : List (List Char)
  modified : Bool
  warnings : List (List Char × List (List Char))
  deriving DecidableEq, Repr

/-- The line loop of `process_file`: matched lines are replaced by their block
of rebuilt imports (and set `modified`), other lines are copied through.
Warnings pair the unknown symbol with the file path. -/
def processLines (sep : Char) (SRC : List (List Char)) (em : List (List Char × List Char))
    (file : List (List Char)) : List (List Char) → FileResult
  | [] => ⟨[], false, []⟩
  | l :: ls =>
    let r := processLines sep SRC em file ls
    match rewriteLine sep SRC em file l with
    | some (nl, ws) => ⟨nl ++ r.newLines, true, ws.map (fun s => (s, file)) ++ r.warnings⟩
    | none => ⟨l :: r.newLines, r.modified, r.warnings⟩

/-- The function `process_file`: final file contents and whether a write-back (and the
`Updated ...` confirmation) happens. -/
def process_file (sep : Char) (SRC : List (List Char)) (em : List (List Char × List Char))
    (file : List (List Char)) (lines : List (List Char)) :
    List (List Char) × Bool :=
  let r := processLines sep SRC em file lines
  if r.modified then (r.newLines, true) else (lines, false)

/-! ### Structured inputs used to quantify over well-formed source texts -/

/-- Identifier characters of the symbol names appearing in the statements. -/
def identChar (c : Char) : Bool := c.isAlpha || c.isDigit || c = '_'

/-- One entry of an aggregating re-export's symbol list: `orig` or
`orig as local`. -/
structure ExportEntry where
  orig : List Char
  renamed : Option (List Char)
  deriving DecidableEq, Repr

/-- The local key under which an entry is expected to be stored. -/
def localOf (e : ExportEntry) : List Char :=
  match e.renamed with
  | some l => l
  | none => e.orig

def renderEntry (e : ExportEntry) : List Char :=
  match e.renamed with
  | none => e.orig
  | some l => e.orig ++ " as ".data ++ l

/-- One aggregating re-export statement, with explicit whitespace so the
symbol list may span several lines: `wsA` after `{`, `sepWs` after every
comma, `wsB` before `}`. -/
structure ExportStmt where
  isTy : Bool
  wsA : List Char
  sepWs : List Char
  wsB : List Char
  entries : List ExportEntry
  path : List Char
  deriving DecidableEq, Repr

def renderInner (st : ExportStmt) : List Char :=
  st.wsA ++ List.intercalate (',' :: st.sepWs) (st.entries.map renderEntry) ++ st.wsB

/-- Shape `export [type] { ... } from "path";`. -/
def renderStmt (st : ExportStmt) : List Char :=
  "export ".data ++ (if st.isTy then "type ".data else []) ++
    '\x7b' :: renderInner st ++ '\x7d' :: " from ".data ++ '"' :: st.path ++ ['"', ';']

/-- A barrel-file text: the statements on consecutive lines. -/
def renderBarrel : List ExportStmt → List Char
  | [] => []
  | [st] => renderStmt st
  | st :: sts => renderStmt st ++ '\n' :: renderBarrel sts

/-- The (local symbol, declared path) pairs a statement list declares, in
textual order. -/
def declsOf (stmts : List ExportStmt) : List (List Char × List Char) :=
  (stmts.map (fun st => st.entries.map (fun e => (localOf e, st.path)))).flatten

/-- Shape `import [type] {inner} from "path"; tail`: the textual form of
an import line naming a quoted module path. -/
def renderImportLine (isTy : Bool) (inner path tl : List Char) : List Char :=
  "import ".data ++ (if isTy then "type ".data else []) ++
    '\x7b' :: inner ++ '\x7d' :: " from ".data ++ '"' :: path ++ '"' :: ';' :: tl

/-! ### Specification-side vocabulary (independent of the implementation) -/

/-- First occurrence of each element, in first-encountered order. -/
def firstSeen : List (List Char) → List (List Char)
  | [] => []
  | x :: xs => x :: (firstSeen xs).filter (fun y => ¬ y = x)

def lexLe (a b : List Char) : Bool := lexLt a b || a = b

/-- The list is weakly increasing in code-point lexicographic order. -/
def sortedLex : List (List Char) → Bool
  | [] => true
  | [_] => true
  | a :: b :: r => lexLe a b && sortedLex (b :: r)

/-! ### Well-formedness predicates for the quantified theorems -/

@[reducible] def goodIdent (s : List Char) : Prop := s ≠ [] ∧ ∀ c ∈ s, identChar c = true

@[reducible] def goodEntry (e : ExportEntry) : Prop :=
  goodIdent e.orig ∧ ∀ l, e.renamed = some l → goodIdent l

@[reducible] def goodWs (w : List Char) : Prop := ∀ c ∈ w, isPySpace c = true

@[reducible] def goodStmt (st : ExportStmt) : Prop :=
  st.entries ≠ [] ∧ (∀ e ∈ st.entries, goodEntry e) ∧
  goodWs st.wsA ∧ goodWs st.sepWs ∧ goodWs st.wsB ∧
  st.path ≠ [] ∧ ∀ c ∈ st.path, isQuote c = false

/-- A plain path component: usable on both sides of the component model of
`os.path` (nonempty, not `.`/`..`, no `/`, and no host separator). -/
@[reducible] def plainComp (sep : Char) (c : List Char) : Prop :=
  c ≠ [] ∧ c ≠ ['.'] ∧ c ≠ ['.', '.'] ∧ '/' ∉ c ∧ sep ∉ c

/-! ## Lemmas -/

/-! ### Character classes -/

theorem pySpace_cases {c : Char} (h : isPySpace c = true) :
    c = ' ' ∨ c = '\t' ∨ c = '\n' ∨ c = '\r' ∨ c = '\x0b' ∨ c = '\x0c' := by
  simp only [isPySpace, Bool.or_eq_true, decide_eq_true_eq] at h
  tauto

theorem identChar_not_space {c : Char} (h : identChar c = true) : isPySpace c = false := by
  cases hps : isPySpace c
  · rfl
  · rcases pySpace_cases hps with h1 | h1 | h1 | h1 | h1 | h1 <;> subst h1 <;>
      exact absurd h (by decide)

theorem pySpace_ne {c : Char} (h : isPySpace c = true) :
    c ≠ ',' ∧ c ≠ '\x7b' ∧ c ≠ '\x7d' ∧ isQuote c = false ∧ c ≠ ';' := by
  rcases pySpace_cases h with h1 | h1 | h1 | h1 | h1 | h1 <;> subst h1 <;> exact (by decide)

theorem identChar_quote {c : Char} (h : identChar c = true) : isQuote c = false := by
  cases hq : isQuote c
  · rfl
  · simp only [isQuote, Bool.or_eq_true, decide_eq_true_eq] at hq
    rcases hq with h1 | h1 <;> subst h1 <;> exact absurd h (by decide)

theorem identChar_ne {c : Char} (h : identChar c = true) :
    c ≠ ',' ∧ c ≠ '\x7b' ∧ c ≠ '\x7d' ∧ c ≠ ';' ∧ c ≠ '\n' ∧ c ≠ ' ' ∧ c ≠ '/' := by
  refine ⟨?_, ?_, ?_, ?_, ?_, ?_, ?_⟩ <;> (intro heq; subst heq; exact absurd h (by decide))

/-! ### dropLit, ws1, takeWhile/dropWhile -/

theorem dropWhile_length_le (p : Char → Bool) (cs : List Char) :
    (cs.dropWhile p).length ≤ cs.length := by
  conv_rhs => rw [← List.takeWhile_append_dropWhile p cs]
  rw [List.length_append]
  omega

theorem dropLit_append (l cs : List Char) : dropLit l (l ++ cs) = some cs := by
  induction l with
  | nil => rfl
  | cons c l ih => simp [dropLit, ih]

theorem dropLit_length {l cs r : List Char} (h : dropLit l cs = some r) :
    r.length + l.length = cs.length := by
  induction l generalizing cs with
  | nil =>
    simp only [dropLit, Option.some.injEq] at h
    simp [← h]
  | cons c l ih =>
    cases cs with
    | nil => simp [dropLit] at h
    | cons d cs =>
      simp only [dropLit] at h
      split at h
      · have := ih h
        simp only [List.length_cons]
        omega
      · cases h

theorem ws1_length {cs r : List Char} (h : ws1 cs = some r) : r.length < cs.length := by
  cases cs with
  | nil => simp [ws1] at h
  | cons c cs =>
    simp only [ws1] at h
    split at h
    · cases h
      have := dropWhile_length_le isPySpace cs
      simp only [List.length_cons]
      omega
    · cases h

theorem afterKw_length {kw cs r : List Char} (hkw : kw ≠ []) (h : afterKw kw cs = some r) :
    r.length < cs.length := by
  simp only [afterKw, Option.bind_eq_some] at h
  obtain ⟨mid, h1, h2⟩ := h
  have e1 := dropLit_length h1
  have e2 := ws1_length h2
  have : 0 < kw.length := List.length_pos.mpr hkw
  omega

theorem afterOptType_length (cs : List Char) : (afterOptType cs).length ≤ cs.length := by
  simp only [afterOptType]
  split
  · next mid h1 =>
    split
    · next r h2 =>
      have e1 := dropLit_length h1
      have e2 := ws1_length h2
      omega
    · exact le_rfl
  · exact le_rfl

theorem braceGroup_length {cs : List Char} {g r : List Char}
    (h : braceGroup cs = some (g, r)) : r.length < cs.length := by
  cases cs with
  | nil => simp [braceGroup] at h
  | cons c cs1 =>
    simp only [braceGroup] at h
    split at h
    · split at h
      · cases h
      · split at h
        · cases h
        · simp only [Option.some.injEq, Prod.mk.injEq] at h
          obtain ⟨-, rfl⟩ := h
          have h1 : (cs1.dropWhile (fun d => ¬ d = '\x7d')).length ≤ cs1.length :=
            dropWhile_length_le _ _
          have h2 := List.length_tail (cs1.dropWhile (fun d => ¬ d = '\x7d'))
          simp only [List.length_cons]
          omega
    · cases h

theorem fromClause_length {cs r : List Char} (h : fromClause cs = some r) :
    r.length < cs.length := by
  simp only [fromClause, Option.bind_eq_some] at h
  obtain ⟨m1, h1, m2, h2, h3⟩ := h
  have e1 := ws1_length h1
  have e2 := dropLit_length h2
  have e3 := ws1_length h3
  omega

theorem quotedPath_length {cs p r : List Char} (h : quotedPath cs = some (p, r)) :
    r.length < cs.length := by
  cases cs with
  | nil => simp [quotedPath] at h
  | cons q cs1 =>
    simp only [quotedPath] at h
    split at h
    · split at h
      · split at h
        · cases h
        · split at h
          · simp only [Option.some.injEq, Prod.mk.injEq] at h
            obtain ⟨-, rfl⟩ := h
            have h1 : (cs1.dropWhile (fun d => !(isQuote d))).length ≤ cs1.length :=
              dropWhile_length_le _ _
            have h2 := List.length_tail (cs1.dropWhile (fun d => !(isQuote d)))
            have h3 := List.length_tail (cs1.dropWhile (fun d => !(isQuote d))).tail
            simp only [List.length_cons]
            omega
          · cases h
      · cases h
    · cases h

theorem matchExportAt_parts {cs g p rest : List Char}
    (h : matchExportAt cs = some (g, p, rest)) :
    ∃ cs1 cs2 cs3, afterKw "export".data cs = some cs1 ∧
      braceGroup (afterOptType cs1) = some (g, cs2) ∧
      fromClause cs2 = some cs3 ∧ quotedPath cs3 = some (p, rest) := by
  unfold matchExportAt at h
  cases ha : afterKw "export".data cs with
  | none => simp only [ha] at h; exact Option.noConfusion h
  | some cs1 =>
    simp only [ha] at h
    cases hb : braceGroup (afterOptType cs1) with
    | none => simp only [hb] at h; exact Option.noConfusion h
    | some gp =>
      obtain ⟨g', cs2⟩ := gp
      simp only [hb] at h
      cases hc : fromClause cs2 with
      | none => simp only [hc] at h; exact Option.noConfusion h
      | some cs3 =>
        simp only [hc] at h
        cases hd : quotedPath cs3 with
        | none => simp only [hd] at h; exact Option.noConfusion h
        | some pr =>
          obtain ⟨p', rest'⟩ := pr
          simp only [hd, Option.some.injEq, Prod.mk.injEq] at h
          obtain ⟨rfl, rfl, rfl⟩ := h
          exact ⟨cs1, cs2, cs3, rfl, hb, hc, hd⟩

theorem matchExportAt_length {cs g p rest : List Char}
    (h : matchExportAt cs = some (g, p, rest)) : rest.length < cs.length := by
  obtain ⟨cs1, cs2, cs3, h1, h2, h3, h4⟩ := matchExportAt_parts h
  have e1 := afterKw_length (by decide) h1
  have e2 := afterOptType_length cs1
  have e3 := braceGroup_length h2
  have e4 := fromClause_length h3
  have e5 := quotedPath_length h4
  omega

/-! ### findallExport unfolding -/

theorem findallExportGo_congr :
    ∀ (f1 f2 : Nat) (cs : List Char), cs.length ≤ f1 → cs.length ≤ f2 →
      findallExportGo f1 cs = findallExportGo f2 cs := by
  intro f1
  induction f1 with
  | zero =>
    intro f2 cs h1 _
    have : cs = [] := List.length_eq_zero.mp (Nat.le_zero.mp h1)
    subst this
    cases f2 <;> rfl
  | succ f1 ih =>
    intro f2 cs h1 h2
    cases cs with
    | nil => cases f2 <;> rfl
    | cons c cs' =>
      cases f2 with
      | zero => simp at h2
      | succ f2' =>
        cases hm : matchExportAt (c :: cs') with
        | none =>
          have hl : cs'.length ≤ f1 := by simp only [List.length_cons] at h1; omega
          have hl2 : cs'.length ≤ f2' := by simp only [List.length_cons] at h2; omega
          simp only [findallExportGo, hm]
          exact ih f2' cs' hl hl2
        | some t =>
          obtain ⟨g, p, rest⟩ := t
          have hlen := matchExportAt_length hm
          have hl : rest.length ≤ f1 := by simp only [List.length_cons] at h1 hlen; omega
          have hl2 : rest.length ≤ f2' := by simp only [List.length_cons] at h2 hlen; omega
          simp only [findallExportGo, hm]
          rw [ih f2' rest hl hl2]

theorem findallExport_match {cs g p rest : List Char}
    (h : matchExportAt cs = some (g, p, rest)) :
    findallExport cs = (g, p) :: findallExport rest := by
  cases cs with
  | nil => rw [show matchExportAt [] = none from rfl] at h; cases h
  | cons c cs' =>
    have hlen := matchExportAt_length h
    simp only [findallExport, List.length_cons, findallExportGo, h]
    exact congrArg _ (findallExportGo_congr cs'.length rest.length rest
      (by simp only [List.length_cons] at hlen; omega) le_rfl)

theorem findallExport_skip {c : Char} {cs : List Char}
    (h : matchExportAt (c :: cs) = none) :
    findallExport (c :: cs) = findallExport cs := by
  simp only [findallExport, List.length_cons, findallExportGo, h]

/-! ### Rendered-text parsing lemmas -/

theorem takeWhile_append_stop (p : Char → Bool) (xs : List Char) (y : Char) (ys : List Char)
    (h : ∀ c ∈ xs, p c = true) (hy : p y = false) :
    (xs ++ y :: ys).takeWhile p = xs := by
  rw [List.takeWhile_append_of_pos h]
  simp [List.takeWhile_cons, hy]

theorem dropWhile_append_stop (p : Char → Bool) (xs : List Char) (y : Char) (ys : List Char)
    (h : ∀ c ∈ xs, p c = true) (hy : p y = false) :
    (xs ++ y :: ys).dropWhile p = y :: ys := by
  rw [List.dropWhile_append_of_pos h]
  simp [List.dropWhile_cons, hy]

theorem afterKw_sp (kw : List Char) (c : Char) (X : List Char) (hc : isPySpace c = false) :
    afterKw kw ((kw ++ [' ']) ++ (c :: X)) = some (c :: X) := by
  have h : (kw ++ [' ']) ++ (c :: X) = kw ++ (' ' :: c :: X) := by simp
  have w1 : isPySpace ' ' = true := rfl
  rw [h]
  simp [afterKw, dropLit_append, ws1, List.dropWhile_cons, hc, w1]

theorem afterOptType_brace (W : List Char) : afterOptType ('\x7b' :: W) = '\x7b' :: W := by
  simp [afterOptType, dropLit]

theorem afterOptType_typekw (W : List Char) :
    afterOptType (("type".data ++ [' ']) ++ ('\x7b' :: W)) = '\x7b' :: W := by
  have h : ("type".data ++ [' ']) ++ ('\x7b' :: W) = "type".data ++ (' ' :: '\x7b' :: W) := by
    simp
  have w1 : isPySpace ' ' = true := rfl
  have w2 : isPySpace '\x7b' = false := rfl
  rw [h]
  simp [afterOptType, dropLit, ws1, List.dropWhile_cons, w1, w2]

theorem braceGroup_render (inner Z : List Char) (hin : ∀ c ∈ inner, ¬ c = '\x7d')
    (hne : inner ≠ []) : braceGroup ('\x7b' :: (inner ++ '\x7d' :: Z)) = some (inner, Z) := by
  have ht : (inner ++ '\x7d' :: Z).takeWhile (fun d => ¬ d = '\x7d') = inner :=
    takeWhile_append_stop _ _ _ _ (fun c hc => by simpa using hin c hc) (by decide)
  have hd : (inner ++ '\x7d' :: Z).dropWhile (fun d => ¬ d = '\x7d') = '\x7d' :: Z :=
    dropWhile_append_stop _ _ _ _ (fun c hc => by simpa using hin c hc) (by decide)
  simp only [braceGroup, ht, hd]
  simp [hne]

theorem fromClause_sp (c : Char) (X : List Char) (hc : isPySpace c = false) :
    fromClause (" from ".data ++ (c :: X)) = some (c :: X) := by
  rw [show (" from ".data : List Char) = [' ', 'f', 'r', 'o', 'm', ' '] from by decide]
  show fromClause (' ' :: ("from".data ++ (' ' :: c :: X))) = some (c :: X)
  have w1 : isPySpace ' ' = true := rfl
  have w2 : isPySpace 'f' = false := rfl
  simp [fromClause, ws1, List.dropWhile_cons, hc, dropLit, w1, w2]

theorem quotedPath_render (path rest : List Char) (hq : ∀ c ∈ path, isQuote c = false)
    (hp : path ≠ []) : quotedPath ('"' :: (path ++ '"' :: ';' :: rest)) = some (path, rest) := by
  have ht : (path ++ '"' :: ';' :: rest).takeWhile (fun d => !(isQuote d)) = path :=
    takeWhile_append_stop _ _ _ _ (fun c hc => by simp [hq c hc]) (by decide)
  have hd : (path ++ '"' :: ';' :: rest).dropWhile (fun d => !(isQuote d)) = '"' :: ';' :: rest :=
    dropWhile_append_stop _ _ _ _ (fun c hc => by simp [hq c hc]) (by decide)
  have w1 : isQuote '"' = true := rfl
  simp only [quotedPath, ht, hd]
  simp [hp, w1]

/-! ### intercalate helpers -/

theorem intercalate_cons_cons (sep a b : List Char) (t : List (List Char)) :
    List.intercalate sep (a :: b :: t) = a ++ (sep ++ List.intercalate sep (b :: t)) := by
  simp [List.intercalate, List.intersperse_cons_cons]

theorem intercalate_single (sep a : List Char) : List.intercalate sep [a] = a := by
  simp [List.intercalate]

theorem mem_intercalate {sep : List Char} {parts : List (List Char)} {c : Char}
    (h : c ∈ List.intercalate sep parts) : c ∈ sep ∨ ∃ p ∈ parts, c ∈ p := by
  induction parts with
  | nil => simp [List.intercalate] at h
  | cons a t ih =>
    cases t with
    | nil =>
      rw [intercalate_single] at h
      exact Or.inr ⟨a, by simp, h⟩
    | cons b t2 =>
      rw [intercalate_cons_cons] at h
      simp only [List.mem_append] at h
      rcases h with h | h | h
      · exact Or.inr ⟨a, by simp, h⟩
      · exact Or.inl h
      · rcases ih h with h | ⟨p, hp, hcp⟩
        · exact Or.inl h
        · exact Or.inr ⟨p, by simp [hp], hcp⟩

theorem intercalate_ne_nil {sep : List Char} {a : List Char} {t : List (List Char)}
    (ha : a ≠ []) : List.intercalate sep (a :: t) ≠ [] := by
  cases t with
  | nil => rw [intercalate_single]; exact ha
  | cons b t2 =>
    rw [intercalate_cons_cons]
    intro h
    rw [List.append_eq_nil] at h
    exact ha h.1

/-! ### Characters of rendered entries and inner symbol lists -/

theorem mem_of_getLast?_eq {l : List Char} {a : Char} (h : l.getLast? = some a) : a ∈ l := by
  have hh : l.reverse.head? = some a := by rw [List.head?_reverse]; exact h
  have : a ∈ l.reverse.head? := by simp [hh]
  exact List.mem_reverse.mp (List.mem_of_mem_head? this)

theorem renderEntry_chars {e : ExportEntry} (he : goodEntry e) :
    ∀ c ∈ renderEntry e, identChar c = true ∨ c = ' ' := by
  obtain ⟨⟨hone, ho⟩, hr⟩ := he
  intro c hc
  unfold renderEntry at hc
  cases hre : e.renamed with
  | none => rw [hre] at hc; exact Or.inl (ho c hc)
  | some l =>
    rw [hre] at hc
    have hc2 : c ∈ e.orig ++ (" as ".data ++ l) := by
      simpa [List.append_assoc] using hc
    simp only [List.mem_append] at hc2
    rcases hc2 with hc2 | hc2 | hc2
    · exact Or.inl (ho c hc2)
    · have hmem : c ∈ [' ', 'a', 's', ' '] := by
        simpa using hc2
      simp only [List.mem_cons, List.not_mem_nil, or_false] at hmem
      rcases hmem with rfl | rfl | rfl | rfl
      · exact Or.inr rfl
      · exact Or.inl (by decide)
      · exact Or.inl (by decide)
      · exact Or.inr rfl
    · exact Or.inl ((hr l hre).2 c hc2)

theorem renderEntry_ne_nil {e : ExportEntry} (he : goodEntry e) : renderEntry e ≠ [] := by
  obtain ⟨⟨hone, -⟩, -⟩ := he
  unfold renderEntry
  cases hre : e.renamed with
  | none => exact hone
  | some l =>
    intro h
    have h2 : e.orig ++ (" as ".data ++ l) = [] := by simp [List.append_assoc] at h
    rw [List.append_eq_nil] at h2
    exact hone h2.1

theorem renderEntry_head {e : ExportEntry} (he : goodEntry e) :
    ∀ ch, (renderEntry e).head? = some ch → identChar ch = true := by
  obtain ⟨⟨hone, ho⟩, hr⟩ := he
  intro ch h
  unfold renderEntry at h
  cases hre : e.renamed with
  | none =>
    rw [hre] at h
    exact ho ch (List.mem_of_mem_head? (by simp [h]))
  | some l =>
    rw [hre] at h
    have h2 : (e.orig ++ (" as ".data ++ l)).head? = some ch := by
      simpa [List.append_assoc] using h
    rw [List.head?_append_of_ne_nil _ hone] at h2
    exact ho ch (List.mem_of_mem_head? (by simp [h2]))

theorem renderEntry_last {e : ExportEntry} (he : goodEntry e) :
    ∀ ch, (renderEntry e).getLast? = some ch → identChar ch = true := by
  obtain ⟨⟨hone, ho⟩, hr⟩ := he
  intro ch h
  unfold renderEntry at h
  cases hre : e.renamed with
  | none => rw [hre] at h; exact ho ch (mem_of_getLast?_eq h)
  | some l =>
    rw [hre] at h
    have hlne : l ≠ [] := ((hr l hre).1)
    have h2 : (e.orig ++ (" as ".data ++ l)).getLast? = some ch := by
      simpa [List.append_assoc] using h
    rw [List.getLast?_append_of_ne_nil _ (by
      intro hx
      rw [List.append_eq_nil] at hx
      exact hlne hx.2)] at h2
    rw [List.getLast?_append_of_ne_nil _ hlne] at h2
    exact (hr l hre).2 ch (mem_of_getLast?_eq h2)

theorem renderInner_chars {st : ExportStmt} (hg : goodStmt st) :
    ∀ c ∈ renderInner st, identChar c = true ∨ isPySpace c = true ∨ c = ',' := by
  obtain ⟨hne, hent, hwsA, hsep, hwsB, -, -⟩ := hg
  intro c hc
  unfold renderInner at hc
  simp only [List.append_assoc, List.mem_append] at hc
  rcases hc with hc | hc | hc
  · exact Or.inr (Or.inl (hwsA c hc))
  · rcases mem_intercalate hc with hsc | ⟨p, hp, hcp⟩
    · simp only [List.mem_cons] at hsc
      rcases hsc with rfl | hsc
      · exact Or.inr (Or.inr rfl)
      · exact Or.inr (Or.inl (hsep c hsc))
    · obtain ⟨e, hee, rfl⟩ := List.mem_map.mp hp
      rcases renderEntry_chars (hent e hee) c hcp with h | rfl
      · exact Or.inl h
      · exact Or.inr (Or.inl rfl)
  · exact Or.inr (Or.inl (hwsB c hc))

theorem renderInner_no_brace {st : ExportStmt} (hg : goodStmt st) :
    ∀ c ∈ renderInner st, ¬ c = '\x7d' := by
  intro c hc
  rcases renderInner_chars hg c hc with h | h | rfl
  · exact (identChar_ne h).2.2.1
  · exact (pySpace_ne h).2.2.1
  · decide

theorem renderInner_ne_nil {st : ExportStmt} (hg : goodStmt st) : renderInner st ≠ [] := by
  obtain ⟨hne, hent, -, -, -, -, -⟩ := hg
  unfold renderInner
  cases hents : st.entries with
  | nil => exact absurd hents hne
  | cons e es =>
    intro h
    rw [List.append_assoc, List.append_eq_nil, List.append_eq_nil] at h
    have : renderEntry e ≠ [] := renderEntry_ne_nil (hent e (by rw [hents]; simp))
    exact @intercalate_ne_nil (',' :: st.sepWs) (renderEntry e) (es.map renderEntry) this (by
      simpa [hents] using h.2.1)

/-! ### Matching a rendered export statement -/

theorem matchExportAt_render (st : ExportStmt) (rest : List Char) (hg : goodStmt st) :
    matchExportAt (renderStmt st ++ rest) = some (renderInner st, st.path, rest) := by
  have hpq : ∀ c ∈ st.path, isQuote c = false := hg.2.2.2.2.2.2
  have hpne : st.path ≠ [] := hg.2.2.2.2.2.1
  have hib := renderInner_no_brace hg
  have hine := renderInner_ne_nil hg
  have h5 : quotedPath ('"' :: (st.path ++ '"' :: ';' :: rest)) = some (st.path, rest) :=
    quotedPath_render _ _ hpq hpne
  have h4 : fromClause (" from ".data ++
      ('"' :: (st.path ++ '"' :: ';' :: rest))) = some ('"' :: (st.path ++ '"' :: ';' :: rest)) :=
    fromClause_sp _ _ (by decide)
  have h3 : braceGroup ('\x7b' :: (renderInner st ++ '\x7d' :: (" from ".data ++
      ('"' :: (st.path ++ '"' :: ';' :: rest))))) =
      some (renderInner st, " from ".data ++ ('"' :: (st.path ++ '"' :: ';' :: rest))) :=
    braceGroup_render _ _ hib hine
  cases hty : st.isTy with
  | false =>
    have hsh : renderStmt st ++ rest =
        ("export".data ++ [' ']) ++ ('\x7b' :: (renderInner st ++ '\x7d' ::
          (" from ".data ++ ('"' :: (st.path ++ '"' :: ';' :: rest))))) := by
      rw [renderStmt, hty,
        show ("export ".data : List Char) = "export".data ++ [' '] from by decide]
      simp
    have h1 : afterKw "export".data (renderStmt st ++ rest) =
        some ('\x7b' :: (renderInner st ++ '\x7d' ::
          (" from ".data ++ ('"' :: (st.path ++ '"' :: ';' :: rest))))) := by
      rw [hsh]; exact afterKw_sp _ _ _ (by decide)
    have h2 := afterOptType_brace (renderInner st ++ '\x7d' ::
      (" from ".data ++ ('"' :: (st.path ++ '"' :: ';' :: rest))))
    simp only [matchExportAt, h1, h2, h3, h4, h5]
  | true =>
    have hsh : renderStmt st ++ rest =
        ("export".data ++ [' ']) ++ ("type ".data ++
          ('\x7b' :: (renderInner st ++ '\x7d' ::
            (" from ".data ++ ('"' :: (st.path ++ '"' :: ';' :: rest)))))) := by
      rw [renderStmt, hty,
        show ("export ".data : List Char) = "export".data ++ [' '] from by decide]
      simp
    have hhead : "type ".data ++
        ('\x7b' :: (renderInner st ++ '\x7d' ::
          (" from ".data ++ ('"' :: (st.path ++ '"' :: ';' :: rest))))) =
        't' :: ("ype ".data ++
          ('\x7b' :: (renderInner st ++ '\x7d' ::
            (" from ".data ++ ('"' :: (st.path ++ '"' :: ';' :: rest)))))) := by
      rw [show ("type ".data : List Char) = 't' :: "ype ".data from by decide]
      simp
    have h1 : afterKw "export".data (renderStmt st ++ rest) =
        some ("type ".data ++
          ('\x7b' :: (renderInner st ++ '\x7d' ::
            (" from ".data ++ ('"' :: (st.path ++ '"' :: ';' :: rest)))))) := by
      rw [hsh, hhead]
      exact afterKw_sp _ _ _ (by decide)
    have h2 : afterOptType ("type ".data ++
        ('\x7b' :: (renderInner st ++ '\x7d' ::
          (" from ".data ++ ('"' :: (st.path ++ '"' :: ';' :: rest)))))) =
        '\x7b' :: (renderInner st ++ '\x7d' ::
          (" from ".data ++ ('"' :: (st.path ++ '"' :: ';' :: rest)))) := by
      rw [show ("type ".data : List Char) = "type".data ++ [' '] from by decide]
      exact afterOptType_typekw _
    simp only [matchExportAt, h1, h2, h3, h4, h5]

theorem matchExportAt_newline (X : List Char) : matchExportAt ('\n' :: X) = none := by
  simp [matchExportAt, afterKw, dropLit]

/-! ### Scanning the whole rendered barrel file -/

theorem findallExport_barrel (stmts : List ExportStmt) (hg : ∀ st ∈ stmts, goodStmt st) :
    findallExport (renderBarrel stmts) = stmts.map (fun st => (renderInner st, st.path)) := by
  induction stmts with
  | nil => rfl
  | cons st sts ih =>
    have hst : goodStmt st := hg st (by simp)
    cases sts with
    | nil =>
      have h := matchExportAt_render st [] hst
      rw [List.append_nil] at h
      rw [show renderBarrel [st] = renderStmt st from rfl, findallExport_match h]
      rfl
    | cons st2 sts2 =>
      have h := matchExportAt_render st ('\n' :: renderBarrel (st2 :: sts2)) hst
      rw [show renderBarrel (st :: st2 :: sts2) =
        renderStmt st ++ '\n' :: renderBarrel (st2 :: sts2) from rfl]
      rw [findallExport_match h, findallExport_skip (matchExportAt_newline _),
        ih (fun s hs => hg s (by simp [hs]))]
      rfl

/-! ### splitOnChar, pyStrip, renameLocal -/

theorem splitOnChar_ne_nil (sep : Char) (cs : List Char) : splitOnChar sep cs ≠ [] := by
  induction cs with
  | nil => simp [splitOnChar]
  | cons c cs ih =>
    simp only [splitOnChar]
    split
    · simp
    · cases h : splitOnChar sep cs with
      | nil => simp
      | cons g gs => simp

theorem splitOnChar_sep_cons (sep : Char) (cs : List Char) :
    splitOnChar sep (sep :: cs) = [] :: splitOnChar sep cs := by
  simp [splitOnChar]

theorem splitOnChar_append {sep : Char} {xs : List Char} (cs : List Char)
    (h : ∀ c ∈ xs, ¬ c = sep) :
    splitOnChar sep (xs ++ cs) =
      (xs ++ (splitOnChar sep cs).headD []) :: (splitOnChar sep cs).tail := by
  induction xs with
  | nil =>
    simp only [List.nil_append]
    cases hc : splitOnChar sep cs with
    | nil => exact absurd hc (splitOnChar_ne_nil sep cs)
    | cons g gs => simp
  | cons x xs ih =>
    have hx : ¬ x = sep := h x (by simp)
    simp only [List.cons_append, splitOnChar, if_neg hx, List.append_eq]
    rw [ih (fun c hc => h c (by simp [hc]))]

theorem splitOnChar_sepfree {sep : Char} {xs : List Char} (h : ∀ c ∈ xs, ¬ c = sep) :
    splitOnChar sep xs = [xs] := by
  have := @splitOnChar_append sep xs [] h
  simpa [splitOnChar] using this

theorem dropWhile_all_space {w : List Char} (hw : goodWs w) :
    w.dropWhile isPySpace = [] := by
  induction w with
  | nil => rfl
  | cons c w ih =>
    rw [List.dropWhile_cons, if_pos (hw c (by simp))]
    exact ih (fun d hd => hw d (by simp [hd]))

theorem pyStrip_spaces {w : List Char} (hw : goodWs w) : pyStrip w = [] := by
  unfold pyStrip
  rw [dropWhile_all_space hw]
  rfl

theorem goodWs_reverse {w : List Char} (hw : goodWs w) : goodWs w.reverse := by
  intro c hc
  exact hw c (List.mem_reverse.mp hc)

theorem pyStrip_sandwich {w1 w2 r : List Char} (hw1 : goodWs w1) (hw2 : goodWs w2)
    (hr : r ≠ []) (hh : ∀ ch, r.head? = some ch → isPySpace ch = false)
    (hl : ∀ ch, r.getLast? = some ch → isPySpace ch = false) :
    pyStrip (w1 ++ (r ++ w2)) = r := by
  obtain ⟨c, r', rfl⟩ : ∃ c r', r = c :: r' := by
    cases r with
    | nil => exact absurd rfl hr
    | cons c r' => exact ⟨c, r', rfl⟩
  have hc : isPySpace c = false := hh c rfl
  unfold pyStrip
  rw [List.dropWhile_append_of_pos hw1, List.cons_append, List.dropWhile_cons]
  simp only [hc, Bool.false_eq_true, if_false]
  rw [show c :: (r' ++ w2) = (c :: r') ++ w2 from rfl, List.reverse_append,
    List.dropWhile_append_of_pos (goodWs_reverse hw2)]
  obtain ⟨d, t, hdt⟩ : ∃ d t, (c :: r').reverse = d :: t := by
    cases hrev : (c :: r').reverse with
    | nil => simp at hrev
    | cons d t => exact ⟨d, t, rfl⟩
  have hd : isPySpace d = false := by
    apply hl
    rw [← List.head?_reverse, hdt]
    rfl
  rw [hdt, List.dropWhile_cons]
  simp only [hd, Bool.false_eq_true, if_false]
  rw [← hdt, List.reverse_reverse]

theorem pyStrip_ident {r : List Char} (hr : ∀ c ∈ r, identChar c = true) : pyStrip r = r := by
  cases hr0 : r with
  | nil => rfl
  | cons c r' =>
    have := @pyStrip_sandwich [] [] (c :: r')
      (by intro x hx; simp at hx) (by intro x hx; simp at hx) (by simp)
      (fun ch hch => identChar_not_space (hr ch (by
        rw [hr0]; exact List.mem_of_mem_head? (by simp [hch]))))
      (fun ch hch => identChar_not_space (hr ch (by
        rw [hr0]; exact mem_of_getLast?_eq hch)))
    simpa using this

theorem isPrefixOf_self_append (l r : List Char) : l.isPrefixOf (l ++ r) = true := by
  induction l with
  | nil => simp [List.isPrefixOf]
  | cons c l ih => simp [List.isPrefixOf, ih]

theorem afterSubOpt_cons_pos {pat : List Char} {c : Char} {cs : List Char}
    (h : pat.isPrefixOf (c :: cs) = true) :
    afterSubOpt pat (c :: cs) = some (List.drop pat.length (c :: cs)) := by
  simp only [afterSubOpt]
  rw [if_pos h]

theorem afterSubOpt_cons_neg {pat : List Char} {c : Char} {cs : List Char}
    (h : pat.isPrefixOf (c :: cs) = false) :
    afterSubOpt pat (c :: cs) = afterSubOpt pat cs := by
  simp only [afterSubOpt]
  rw [if_neg (by simp [h])]

theorem beforeSub_cons_neg {pat : List Char} {c : Char} {cs : List Char}
    (h : pat.isPrefixOf (c :: cs) = false) :
    beforeSub pat (c :: cs) = c :: beforeSub pat cs := by
  simp only [beforeSub]
  rw [if_neg (by simp [h])]

theorem asPat_not_prefixed {c : Char} {s : List Char} (hc : identChar c = true) :
    (" as ".data : List Char).isPrefixOf (c :: s) = false := by
  have hne : (' ' == c) = false := by
    rw [beq_eq_false_iff_ne]
    exact fun h => (identChar_ne hc).2.2.2.2.2.1 h.symm
  rw [show (" as ".data : List Char) = ' ' :: ['a', 's', ' '] from by decide]
  simp [List.isPrefixOf, hne]

theorem afterSub_as_none {s : List Char} (h : ∀ c ∈ s, identChar c = true) :
    afterSubOpt " as ".data s = none := by
  induction s with
  | nil => rfl
  | cons c s ih =>
    rw [afterSubOpt_cons_neg (asPat_not_prefixed (h c (by simp)))]
    exact ih (fun d hd => h d (by simp [hd]))

theorem afterSub_as_found {orig l : List Char} (ho : ∀ c ∈ orig, identChar c = true) :
    afterSubOpt " as ".data (orig ++ (" as ".data ++ l)) = some l := by
  induction orig with
  | nil =>
    rw [List.nil_append,
      show ((" as ".data : List Char) ++ l) = ' ' :: ('a' :: 's' :: ' ' :: l) from by simp,
      afterSubOpt_cons_pos (by simp)]
    simp
  | cons c orig ih =>
    rw [List.cons_append, afterSubOpt_cons_neg (asPat_not_prefixed (ho c (by simp)))]
    exact ih (fun d hd => ho d (by simp [hd]))

theorem beforeSub_as_ident {s : List Char} (h : ∀ c ∈ s, identChar c = true) :
    beforeSub " as ".data s = s := by
  induction s with
  | nil => rfl
  | cons c s ih =>
    rw [beforeSub_cons_neg (asPat_not_prefixed (h c (by simp)))]
    rw [ih (fun d hd => h d (by simp [hd]))]

theorem renameLocal_plain {s : List Char} (h : ∀ c ∈ s, identChar c = true) :
    renameLocal s = s := by
  unfold renameLocal
  rw [afterSub_as_none h]

theorem renameLocal_renamed {o l : List Char} (ho : ∀ c ∈ o, identChar c = true)
    (hl : ∀ c ∈ l, identChar c = true) :
    renameLocal (o ++ (" as ".data ++ l)) = l := by
  unfold renameLocal
  rw [afterSub_as_found ho]
  show pyStrip (beforeSub " as ".data l) = l
  rw [beforeSub_as_ident hl, pyStrip_ident hl]

theorem renameLocal_renderEntry {e : ExportEntry} (he : goodEntry e) :
    renameLocal (renderEntry e) = localOf e := by
  obtain ⟨⟨-, ho⟩, hr⟩ := he
  unfold renderEntry localOf
  cases hre : e.renamed with
  | none => exact renameLocal_plain ho
  | some l =>
    show renameLocal (e.orig ++ " as ".data ++ l) = l
    rw [List.append_assoc]
    exact renameLocal_renamed ho ((hr l hre).2)

/-! ### splitSyms on a rendered symbol list -/

theorem pyStrip_left_sandwich {w1 r : List Char} (hw1 : goodWs w1)
    (hr : r ≠ []) (hh : ∀ ch, r.head? = some ch → isPySpace ch = false)
    (hl : ∀ ch, r.getLast? = some ch → isPySpace ch = false) :
    pyStrip (w1 ++ r) = r := by
  have := @pyStrip_sandwich w1 [] r hw1 (by intro c hc; simp at hc) hr hh hl
  simpa using this

theorem splitSyms_sandwich (sepWs : List Char) (parts : List (List Char))
    (hS : goodWs sepWs)
    (hp : ∀ r ∈ parts, r ≠ [] ∧ (∀ c ∈ r, ¬ c = ',') ∧
      (∀ ch, r.head? = some ch → isPySpace ch = false) ∧
      (∀ ch, r.getLast? = some ch → isPySpace ch = false)) :
    ∀ (wsA wsB : List Char), goodWs wsA → goodWs wsB →
      splitSyms (wsA ++ (List.intercalate (',' :: sepWs) parts ++ wsB)) = parts := by
  induction parts with
  | nil =>
    intro wsA wsB hA hB
    have hws : goodWs (wsA ++ wsB) := by
      intro c hc
      rcases List.mem_append.mp hc with h | h
      · exact hA c h
      · exact hB c h
    have hfree : ∀ c ∈ wsA ++ wsB, ¬ c = ',' := fun c hc => (pySpace_ne (hws c hc)).1
    rw [show List.intercalate (',' :: sepWs) ([] : List (List Char)) = [] from rfl,
      List.nil_append]
    unfold splitSyms
    rw [splitOnChar_sepfree hfree]
    simp [pyStrip_spaces hws]
  | cons r parts' ih =>
    intro wsA wsB hA hB
    obtain ⟨hrne, hrcomma, hrh, hrl⟩ := hp r (by simp)
    cases parts' with
    | nil =>
      have hfree : ∀ c ∈ wsA ++ (r ++ wsB), ¬ c = ',' := by
        intro c hc
        rcases List.mem_append.mp hc with h | h
        · exact (pySpace_ne (hA c h)).1
        · rcases List.mem_append.mp h with h | h
          · exact hrcomma c h
          · exact (pySpace_ne (hB c h)).1
      rw [intercalate_single]
      unfold splitSyms
      rw [splitOnChar_sepfree hfree]
      simp only [List.map_cons, List.map_nil]
      rw [pyStrip_sandwich hA hB hrne hrh hrl, List.filter_cons,
        if_pos (show (decide ¬ r = []) = true by simp [hrne])]
      simp
    | cons r2 parts'' =>
      rw [intercalate_cons_cons]
      have hxs : ∀ c ∈ wsA ++ r, ¬ c = ',' := by
        intro c hc
        rcases List.mem_append.mp hc with h | h
        · exact (pySpace_ne (hA c h)).1
        · exact hrcomma c h
      have hsh : wsA ++ ((r ++ ((',' :: sepWs) ++ List.intercalate (',' :: sepWs)
          (r2 :: parts''))) ++ wsB) = (wsA ++ r) ++ (',' ::
            (sepWs ++ (List.intercalate (',' :: sepWs) (r2 :: parts'') ++ wsB))) := by
        simp [List.append_assoc]
      rw [hsh]
      unfold splitSyms
      rw [splitOnChar_append _ hxs, splitOnChar_sep_cons]
      simp only [List.headD_cons, List.tail_cons, List.append_nil, List.map_cons]
      rw [pyStrip_left_sandwich hA hrne hrh hrl]
      have hrest := ih (fun p hp' => hp p (by simp [hp'])) sepWs wsB hS hB
      unfold splitSyms at hrest
      rw [List.filter_cons, if_pos (show (decide ¬ r = []) = true by simp [hrne])]
      rw [hrest]

theorem splitSyms_renderInner {st : ExportStmt} (hg : goodStmt st) :
    splitSyms (renderInner st) = st.entries.map renderEntry := by
  obtain ⟨-, hent, hwsA, hsep, hwsB, -, -⟩ := hg
  have hparts : ∀ r ∈ st.entries.map renderEntry, r ≠ [] ∧ (∀ c ∈ r, ¬ c = ',') ∧
      (∀ ch, r.head? = some ch → isPySpace ch = false) ∧
      (∀ ch, r.getLast? = some ch → isPySpace ch = false) := by
    intro r hr
    obtain ⟨e, he, rfl⟩ := List.mem_map.mp hr
    have hge := hent e he
    refine ⟨renderEntry_ne_nil hge, ?_, ?_, ?_⟩
    · intro c hc
      rcases renderEntry_chars hge c hc with h | rfl
      · exact (identChar_ne h).1
      · decide
    · exact fun ch hch => identChar_not_space (renderEntry_head hge ch hch)
    · exact fun ch hch => identChar_not_space (renderEntry_last hge ch hch)
  have := splitSyms_sandwich st.sepWs (st.entries.map renderEntry) hsep hparts
    st.wsA st.wsB hwsA hwsB
  rw [renderInner, List.append_assoc]
  exact this

/-! ### Insertion-order dict folds -/

theorem foldl_congr_mem {α β : Type} {f g : β → α → β} {l : List α}
    (h : ∀ a ∈ l, ∀ b, f b a = g b a) : ∀ b, l.foldl f b = l.foldl g b := by
  induction l with
  | nil => intro b; rfl
  | cons a l ih =>
    intro b
    simp only [List.foldl_cons]
    rw [h a (by simp) b]
    exact ih (fun a' ha' b' => h a' (by simp [ha']) b') (g b a)

theorem dictInsert_fresh {m : List (List Char × List Char)} {k v : List Char}
    (h : ∀ kv ∈ m, kv.1 ≠ k) : dictInsert m k v = m ++ [(k, v)] := by
  have hany : m.any (fun kv => kv.1 = k) = false := by
    rw [List.any_eq_false]
    intro kv hkv
    simpa using h kv hkv
  simp [dictInsert, hany]

theorem foldl_dictInsert_fresh :
    ∀ (kvs : List (List Char × List Char)) (m : List (List Char × List Char)),
      (∀ kv ∈ kvs, ∀ kv' ∈ m, kv'.1 ≠ kv.1) → (kvs.map Prod.fst).Nodup →
      kvs.foldl (fun acc kv => dictInsert acc kv.1 kv.2) m = m ++ kvs := by
  intro kvs
  induction kvs with
  | nil => intro m _ _; simp
  | cons kv kvs ih =>
    intro m hdisj hnd
    simp only [List.foldl_cons]
    rw [dictInsert_fresh (hdisj kv (by simp))]
    have hnd2 : (kv.1 :: kvs.map Prod.fst).Nodup := by simpa using hnd
    have hcons := List.nodup_cons.mp hnd2
    have hnd' : (kvs.map Prod.fst).Nodup := hcons.2
    have hnotin : kv.1 ∉ kvs.map Prod.fst := hcons.1
    rw [ih (m ++ [(kv.1, kv.2)]) ?_ hnd']
    · simp
    · intro kv2 hkv2 kv' hkv'
      rcases List.mem_append.mp hkv' with h | h
      · exact hdisj kv2 (by simp [hkv2]) kv' h
      · have : kv' = (kv.1, kv.2) := by simpa using h
        subst this
        intro hco
        exact hnotin (by
          rw [hco]
          exact List.mem_map.mpr ⟨kv2, hkv2, rfl⟩)

instance (e : ExportEntry) : Decidable (∀ l, e.renamed = some l → goodIdent l) :=
  match e.renamed with
  | none => isTrue (fun _ h => Option.noConfusion h)
  | some l0 =>
    if h : goodIdent l0 then
      isTrue (by
        intro l hl
        obtain rfl : l0 = l := by injection hl
        exact h)
    else isFalse (fun hall => h (hall l0 rfl))

theorem stmt_fold {st : ExportStmt} (hst : goodStmt st) (m : List (List Char × List Char)) :
    (splitSyms (renderInner st)).foldl
      (fun m' sym => dictInsert m' (renameLocal sym) st.path) m =
    (st.entries.map (fun e => (localOf e, st.path))).foldl
      (fun acc kv => dictInsert acc kv.1 kv.2) m := by
  rw [splitSyms_renderInner hst, List.foldl_map, List.foldl_map]
  exact foldl_congr_mem (fun e he b => by
    rw [renameLocal_renderEntry (hst.2.1 e he)]) m

theorem barrel_fold (stmts : List ExportStmt) (hg : ∀ st ∈ stmts, goodStmt st) :
    ∀ m, stmts.foldl (fun m st => (splitSyms (renderInner st)).foldl
        (fun m' sym => dictInsert m' (renameLocal sym) st.path) m) m =
      (declsOf stmts).foldl (fun acc kv => dictInsert acc kv.1 kv.2) m := by
  induction stmts with
  | nil => intro m; rfl
  | cons st sts ih =>
    intro m
    simp only [List.foldl_cons]
    rw [stmt_fold (hg st (by simp)) m]
    rw [ih (fun s hs => hg s (by simp [hs]))]
    rw [show declsOf (st :: sts) =
      (st.entries.map (fun e => (localOf e, st.path))) ++ declsOf sts from by
        simp [declsOf]]
    rw [List.foldl_append]

/-- Claim C1: for every barrel-file text consisting of well-formed aggregating
re-export statements (symbol lists may span lines, entries may carry rename
clauses) whose declared local symbol names are pairwise distinct, the export
index built by `parse_imports_ts` is exactly the list of (local name, declared
path) pairs of the statements: its key set is the union of all declared
symbols, each mapped to the path of the statement declaring it, and a renamed
entry is keyed by the local (renamed) identifier. -/
theorem c1_export_index (stmts : List ExportStmt) (hg : ∀ st ∈ stmts, goodStmt st)
    (hnd : ((declsOf stmts).map Prod.fst).Nodup) :
    parse_imports_ts (renderBarrel stmts) = declsOf stmts := by
  unfold parse_imports_ts
  rw [findallExport_barrel stmts hg, List.foldl_map]
  change stmts.foldl (fun m st => (splitSyms (renderInner st)).foldl
    (fun m' sym => dictInsert m' (renameLocal sym) st.path) m) [] = _
  rw [barrel_fold stmts hg []]
  rw [foldl_dictInsert_fresh (declsOf stmts) [] (by intro kv _ kv' h; simp at h) hnd]
  simp

/-- Witness for C1: a concrete two-statement barrel file with a rename clause
and a newline-separated symbol list. -/
theorem c1_export_index_witness :
    parse_imports_ts (renderBarrel
      [⟨false, [' '], ['\n', ' '], [' '],
        [⟨"Foo".data, none⟩, ⟨"Bar".data, some "Baz".data⟩], "./a/A".data⟩,
       ⟨true, [], [' '], [],
        [⟨"Qux".data, none⟩], "./b/B".data⟩]) =
    declsOf
      [⟨false, [' '], ['\n', ' '], [' '],
        [⟨"Foo".data, none⟩, ⟨"Bar".data, some "Baz".data⟩], "./a/A".data⟩,
       ⟨true, [], [' '], [],
        [⟨"Qux".data, none⟩], "./b/B".data⟩] :=
  c1_export_index _ (by decide) (by decide)

/-! ### Path arithmetic -/

theorem splitOnChar_dotslash {name : List Char} (h : ∀ c ∈ name, ¬ c = '/') :
    splitOnChar '/' ('.' :: '/' :: name) = [['.'], name] := by
  have h1 : splitOnChar '/' ('/' :: name) = [] :: splitOnChar '/' name :=
    splitOnChar_sep_cons _ _
  have h2 : splitOnChar '/' name = [name] := splitOnChar_sepfree h
  simp [splitOnChar, h1, h2]

theorem normStep_foldl_plain :
    ∀ (comps : List (List Char)) (acc : List (List Char)),
      (∀ c ∈ comps, c ≠ [] ∧ c ≠ ['.'] ∧ c ≠ ['.', '.']) →
      comps.foldl normStep acc = acc ++ comps := by
  intro comps
  induction comps with
  | nil => intro acc _; simp
  | cons c comps ih =>
    intro acc h
    obtain ⟨h1, h2, h3⟩ := h c (by simp)
    simp only [List.foldl_cons]
    rw [show normStep acc c = acc ++ [c] from by simp [normStep, h1, h2, h3]]
    rw [ih (acc ++ [c]) (fun d hd => h d (by simp [hd]))]
    simp

theorem commonLen_append (SRC a b : List (List Char)) :
    commonLen (SRC ++ a) (SRC ++ b) = SRC.length + commonLen a b := by
  induction SRC with
  | nil => simp
  | cons s SRC ih =>
    show commonLen (s :: (SRC ++ a)) (s :: (SRC ++ b)) = (s :: SRC).length + commonLen a b
    rw [show commonLen (s :: (SRC ++ a)) (s :: (SRC ++ b)) =
      commonLen (SRC ++ a) (SRC ++ b) + 1 from by simp [commonLen]]
    rw [ih]
    simp only [List.length_cons]
    omega

theorem commonLen_nil_right (a : List (List Char)) : commonLen a [] = 0 := by
  cases a <;> rfl

theorem commonLen_single_miss {name : List Char} {dirs : List (List Char)}
    (h : dirs.head? ≠ some name) : commonLen [name] dirs = 0 := by
  cases dirs with
  | nil => rfl
  | cons d ds =>
    have hne : ¬ name = d := fun hco => h (by simp [hco])
    simp [commonLen, hne]

theorem pyReplace_skip {sep : Char} {p : List Char} (h : ∀ c ∈ p, ¬ c = sep) :
    pyReplaceChar sep '/' p = p := by
  unfold pyReplaceChar
  induction p with
  | nil => rfl
  | cons c p ih =>
    rw [List.map_cons, if_neg (h c (by simp)), ih (fun d hd => h d (by simp [hd]))]

theorem pyReplace_intercalate (sep : Char) (comps : List (List Char))
    (h : ∀ p ∈ comps, ∀ c ∈ p, ¬ c = sep) :
    pyReplaceChar sep '/' (List.intercalate [sep] comps) = List.intercalate ['/'] comps := by
  induction comps with
  | nil => rfl
  | cons a t ih =>
    cases t with
    | nil =>
      rw [intercalate_single, intercalate_single]
      exact pyReplace_skip (h a (by simp))
    | cons b t2 =>
      rw [intercalate_cons_cons, intercalate_cons_cons]
      unfold pyReplaceChar
      rw [List.map_append, List.map_append]
      unfold pyReplaceChar at ih
      rw [ih (fun p hp => h p (by simp [hp]))]
      rw [show List.map (fun c => if c = sep then '/' else c) a = a from
        pyReplace_skip (h a (by simp))]
      simp

theorem intercalate_updirs (name : List Char) :
    ∀ D : Nat, List.intercalate ['/'] (List.replicate D ['.', '.'] ++ [name]) =
      (List.replicate D ('.' :: '.' :: '/' :: [])).flatten ++ name := by
  intro D
  induction D with
  | zero => simp [intercalate_single]
  | succ D ih =>
    obtain ⟨b, t, hbt⟩ : ∃ b t,
        List.replicate D (['.', '.'] : List Char) ++ [name] = b :: t := by
      cases hsh : List.replicate D (['.', '.'] : List Char) ++ [name] with
      | nil =>
        exact absurd (congrArg List.length hsh) (by simp)
      | cons b t => exact ⟨b, t, rfl⟩
    simp only [List.replicate_succ, List.flatten_cons, List.cons_append]
    rw [hbt, intercalate_cons_cons, ← hbt, ih]
    simp

theorem relPathString_updirs (sep : Char) (SRC dirs : List (List Char))
    (fname name : List Char)
    (hSRC : ∀ c ∈ SRC, c ≠ [] ∧ c ≠ ['.'] ∧ c ≠ ['.', '.'])
    (hname : name ≠ [] ∧ name ≠ ['.'] ∧ name ≠ ['.', '.'])
    (hslash : ∀ c ∈ name, ¬ c = '/') (hsep : ∀ c ∈ name, ¬ c = sep)
    (hsepdot : ¬ ('.' : Char) = sep)
    (hclash : dirs.head? ≠ some name) :
    relPathString sep SRC (SRC ++ dirs ++ [fname]) ('.' :: '/' :: name) =
      List.intercalate ['/'] (List.replicate dirs.length ['.', '.'] ++ [name]) := by
  unfold relPathString
  rw [splitOnChar_dotslash hslash]
  have habs : normpathComps (SRC ++ [['.'], name]) = SRC ++ [name] := by
    unfold normpathComps
    rw [List.foldl_append, normStep_foldl_plain SRC [] hSRC]
    simp only [List.nil_append, List.foldl_cons, List.foldl_nil]
    rw [show normStep SRC ['.'] = SRC from by simp [normStep]]
    rw [show normStep SRC name = SRC ++ [name] from by
      simp [normStep, hname.1, hname.2.1, hname.2.2]]
  rw [habs]
  rw [show (SRC ++ dirs ++ [fname]).dropLast = SRC ++ dirs from by
    rw [List.dropLast_concat]]
  unfold relpathComps
  dsimp only
  rw [commonLen_append, commonLen_single_miss hclash]
  simp only [Nat.add_zero]
  rw [List.drop_left]
  rw [show (SRC ++ dirs).length - SRC.length = dirs.length from by
    simp [List.length_append]]
  rw [if_neg (by
    intro hco
    rw [List.append_eq_nil] at hco
    simp at hco)]
  exact pyReplace_intercalate sep _ (by
    intro p hp c hc
    rcases List.mem_append.mp hp with h | h
    · have hp2 : p = ['.', '.'] := List.eq_of_mem_replicate h
      subst hp2
      have : c = '.' := by simpa using hc
      subst this
      exact hsepdot
    · have hp2 : p = name := by simpa using h
      subst hp2
      exact hsep c hc)

theorem relPathString_samedir (sep : Char) (SRC : List (List Char))
    (fname name : List Char)
    (hSRC : ∀ c ∈ SRC, c ≠ [] ∧ c ≠ ['.'] ∧ c ≠ ['.', '.'])
    (hname : name ≠ [] ∧ name ≠ ['.'] ∧ name ≠ ['.', '.'])
    (hslash : ∀ c ∈ name, ¬ c = '/') (hsep : ∀ c ∈ name, ¬ c = sep) :
    relPathString sep SRC (SRC ++ [fname]) ('.' :: '/' :: name) = name := by
  unfold relPathString
  rw [splitOnChar_dotslash hslash]
  have habs : normpathComps (SRC ++ [['.'], name]) = SRC ++ [name] := by
    unfold normpathComps
    rw [List.foldl_append, normStep_foldl_plain SRC [] hSRC]
    simp only [List.nil_append, List.foldl_cons, List.foldl_nil]
    rw [show normStep SRC ['.'] = SRC from by simp [normStep]]
    rw [show normStep SRC name = SRC ++ [name] from by
      simp [normStep, hname.1, hname.2.1, hname.2.2]]
  rw [habs]
  rw [show (SRC ++ [fname]).dropLast = SRC from by rw [List.dropLast_concat]]
  have hcl : commonLen (SRC ++ [name]) SRC = SRC.length := by
    calc commonLen (SRC ++ [name]) SRC
        = commonLen (SRC ++ [name]) (SRC ++ []) := by simp
      _ = SRC.length + commonLen [name] [] := commonLen_append SRC [name] []
      _ = SRC.length := by simp [commonLen_nil_right]
  unfold relpathComps
  dsimp only
  rw [hcl]
  simp only [Nat.sub_self, List.replicate_zero, List.nil_append]
  rw [List.drop_left]
  rw [if_neg (by simp)]
  rw [intercalate_single]
  exact pyReplace_skip hsep

/-- Claim C2 counterexample: the importing file `src/Foo/x.ts` sits at depth 1
below the source root and the target is declared at the root as `./Foo`, yet
the resolver returns `"."` (the directory `Foo` shadows the module name), not
the `"../Foo"` the claim demands. -/
theorem c2_counterexample :
    get_relative_path '/' ["src".data] ["src".data, "Foo".data, "x.ts".data]
      ("./Foo".data) = ".".data ∧
    (".".data : List Char) ≠ "../Foo".data := ⟨by decide, by decide⟩

/-- Claim C2 (amended): for every importing file at depth D ≥ 1 below the
source root and every target declared at the root, provided the first
directory on the importing file's path below the root is not named like the
target, the resolver returns exactly D `"../"` segments followed by the
target's name, in forward slashes regardless of the host separator `sep`. -/
theorem c2_amended (sep : Char) (SRC dirs : List (List Char))
    (fname name : List Char)
    (hSRC : ∀ c ∈ SRC, c ≠ [] ∧ c ≠ ['.'] ∧ c ≠ ['.', '.'])
    (hname : name ≠ [] ∧ name ≠ ['.'] ∧ name ≠ ['.', '.'])
    (hslash : ∀ c ∈ name, ¬ c = '/') (hsep : ∀ c ∈ name, ¬ c = sep)
    (hsepdot : ¬ ('.' : Char) = sep)
    (hD : dirs ≠ []) (hclash : dirs.head? ≠ some name) :
    get_relative_path sep SRC (SRC ++ dirs ++ [fname]) ('.' :: '/' :: name) =
      (List.replicate dirs.length ('.' :: '.' :: '/' :: [])).flatten ++ name := by
  unfold get_relative_path
  rw [relPathString_updirs sep SRC dirs fname name hSRC hname hslash hsep hsepdot hclash]
  obtain ⟨rest, hrest⟩ : ∃ rest,
      List.replicate dirs.length (['.', '.'] : List Char) ++ [name] =
        ['.', '.'] :: rest := by
    cases hd : dirs.length with
    | zero => exact absurd (List.length_eq_zero.mp hd) hD
    | succ n =>
      exact ⟨List.replicate n ['.', '.'] ++ [name], by simp [List.replicate_succ]⟩
  have hhead : (List.intercalate ['/']
      (List.replicate dirs.length ['.', '.'] ++ [name])).head? = some '.' := by
    rw [hrest]
    cases rest with
    | nil => rw [intercalate_single]; rfl
    | cons b t =>
      rw [intercalate_cons_cons]
      rw [List.head?_append_of_ne_nil _ (by simp)]
      rfl
  rw [if_pos hhead]
  exact intercalate_updirs name dirs.length

/-- Witness for the amended C2: a Windows-style separator, source root
`c:\Codes\ts-collections\src`, importing file two directories below the root,
target declared at the root. -/
theorem c2_amended_witness :
    get_relative_path '\\' ["c:".data, "Codes".data, "ts-collections".data, "src".data]
      ["c:".data, "Codes".data, "ts-collections".data, "src".data,
        "enumerator".data, "internal".data, "x.ts".data]
      ("./IEnumerable".data) =
    (List.replicate 2 ('.' :: '.' :: '/' :: [])).flatten ++ "IEnumerable".data := by
  have h := c2_amended '\\'
    ["c:".data, "Codes".data, "ts-collections".data, "src".data]
    ["enumerator".data, "internal".data] "x.ts".data "IEnumerable".data
    (by decide) (by decide) (by decide) (by decide) (by decide) (by decide) (by decide)
  simpa using h

/-- Claim C9 counterexample: for the same-directory target `./.hidden` the
resolver returns the bare name `.hidden` (it already starts with a dot), not
`"./.hidden"` — so the result can be a bare name alone, contradicting the
claim. -/
theorem c9_counterexample :
    get_relative_path '/' ["src".data] ["src".data, "a.ts".data] ("./.hidden".data) =
      ".hidden".data ∧
    (".hidden".data : List Char) ≠ "./.hidden".data := ⟨by decide, by decide⟩

/-- Claim C9 (amended): (1) whenever the separator-normalised relative path
does not already begin with `.`, the resolver returns it prefixed with `./`;
(2) when the importing file and the target resolve to the same directory and
the target's bare name does not itself begin with `.`, the result is the bare
name prefixed with `./` — a name that begins with `.` is returned as-is. -/
theorem c9_amended :
    (∀ (sep : Char) (SRC from_file : List (List Char)) (to_rel : List Char),
      (relPathString sep SRC from_file to_rel).head? ≠ some '.' →
      get_relative_path sep SRC from_file to_rel =
        '.' :: '/' :: relPathString sep SRC from_file to_rel) ∧
    (∀ (sep : Char) (SRC : List (List Char)) (fname name : List Char),
      (∀ c ∈ SRC, c ≠ [] ∧ c ≠ ['.'] ∧ c ≠ ['.', '.']) →
      (name ≠ [] ∧ name ≠ ['.'] ∧ name ≠ ['.', '.']) →
      (∀ c ∈ name, ¬ c = '/') → (∀ c ∈ name, ¬ c = sep) →
      name.head? ≠ some '.' →
      get_relative_path sep SRC (SRC ++ [fname]) ('.' :: '/' :: name) =
        '.' :: '/' :: name) := by
  constructor
  · intro sep SRC from_file to_rel h
    unfold get_relative_path
    rw [if_neg h]
  · intro sep SRC fname name hSRC hname hslash hsep hhd
    unfold get_relative_path
    rw [relPathString_samedir sep SRC fname name hSRC hname hslash hsep]
    rw [if_neg hhd]

/-- Witness for the amended C9: same-directory import of `./Util` from
`src/x.ts` resolves to `./Util`. -/
theorem c9_amended_witness :
    get_relative_path '/' ["src".data] ["src".data, "x.ts".data] ("./Util".data) =
      '.' :: '/' :: "Util".data :=
  c9_amended.2 '/' ["src".data] "x.ts".data "Util".data
    (by decide) (by decide) (by decide) (by decide) (by decide)

/-! ### firstSeen and the grouping dict -/

theorem mem_firstSeen {a : List Char} : ∀ {l : List (List Char)}, a ∈ firstSeen l → a ∈ l := by
  intro l
  induction l with
  | nil => intro h; exact absurd h (by simp [firstSeen])
  | cons x xs ih =>
    intro h
    simp only [firstSeen, List.mem_cons] at h
    rcases h with rfl | h
    · simp
    · exact List.mem_cons_of_mem _ (ih (List.mem_of_mem_filter h))

theorem firstSeen_filter (q : List Char → Bool) :
    ∀ l : List (List Char), (firstSeen l).filter q = firstSeen (l.filter q) := by
  intro l
  induction l with
  | nil => rfl
  | cons x xs ih =>
    have hcomm : ∀ (L : List (List Char)),
        (L.filter (fun y => ¬ y = x)).filter q = (L.filter q).filter (fun y => ¬ y = x) := by
      intro L
      rw [List.filter_filter, List.filter_filter]
      exact List.filter_congr (fun a _ => Bool.and_comm _ _)
    cases hq : q x with
    | true =>
      rw [show (x :: xs).filter q = x :: xs.filter q from by simp [List.filter_cons, hq]]
      simp only [firstSeen]
      rw [List.filter_cons, if_pos (by simp [hq]), hcomm, ih]
    | false =>
      rw [show (x :: xs).filter q = xs.filter q from by simp [List.filter_cons, hq]]
      simp only [firstSeen]
      rw [List.filter_cons, if_neg (by simp [hq]), hcomm, ih]
      apply List.filter_eq_self.mpr
      intro a ha
      have haq : q a = true := List.of_mem_filter (mem_firstSeen ha)
      simp only [decide_eq_true_eq]
      intro hco
      subst hco
      rw [hq] at haq
      cases haq

theorem map_fst_update (m : List (List Char × List (List Char))) (p s : List Char) :
    (m.map (fun kv => if kv.1 = p then (kv.1, kv.2 ++ [s]) else kv)).map Prod.fst =
      m.map Prod.fst := by
  rw [List.map_map]
  apply List.map_congr_left
  intro kv _
  by_cases h : kv.1 = p <;> simp [h]

theorem any_congr_mem {α : Type} {p q : α → Bool} :
    ∀ {l : List α}, (∀ a ∈ l, p a = q a) → l.any p = l.any q := by
  intro l
  induction l with
  | nil => intro _; rfl
  | cons a l ih =>
    intro h
    simp only [List.any_cons]
    rw [h a (by simp), ih (fun b hb => h b (by simp [hb]))]

theorem groupSymsGo_spec (R : List Char → Option (List Char)) :
    ∀ (ss : List (List Char)) (m : List (List Char × List (List Char)))
      (w : List (List Char)), (m.map Prod.fst).Nodup →
      groupSymsGo R m w ss =
        (m.map (fun kv => (kv.1, kv.2 ++ ss.filter (fun s => R s = some kv.1))) ++
          (firstSeen ((ss.filterMap R).filter
            (fun p => !(m.any (fun kv => kv.1 = p))))).map
            (fun p => (p, ss.filter (fun s => R s = some p))),
         w ++ ss.filter (fun s => (R s).isNone)) := by
  intro ss
  induction ss with
  | nil =>
    intro m w _
    simp only [groupSymsGo, List.filter_nil, List.filterMap_nil, List.append_nil]
    rw [show firstSeen [] = [] from rfl]
    simp
  | cons s ss ih =>
    intro m w hnd
    cases hR : R s with
    | none =>
      have hfil : ∀ q : List Char, (s :: ss).filter (fun s' => R s' = some q) =
          ss.filter (fun s' => R s' = some q) := by
        intro q
        simp [List.filter_cons, hR]
      have hfm : (s :: ss).filterMap R = ss.filterMap R := by
        simp [List.filterMap_cons, hR]
      have hno : (s :: ss).filter (fun s' => (R s').isNone) =
          s :: ss.filter (fun s' => (R s').isNone) := by
        simp [List.filter_cons, hR]
      simp only [groupSymsGo, hR]
      rw [ih m (w ++ [s]) hnd, hfm, hno]
      refine congrArg₂ Prod.mk (congrArg₂ _ ?_ ?_) ?_
      · exact List.map_congr_left (fun kv _ => by rw [hfil kv.1])
      · exact List.map_congr_left (fun q _ => by rw [hfil q])
      · simp [List.append_assoc]
    | some p =>
      have hfil_p : (s :: ss).filter (fun s' => R s' = some p) =
          s :: ss.filter (fun s' => R s' = some p) := by
        simp [List.filter_cons, hR]
      have hfil_ne : ∀ q : List Char, q ≠ p → (s :: ss).filter (fun s' => R s' = some q) =
          ss.filter (fun s' => R s' = some q) := by
        intro q hq
        simp only [List.filter_cons, hR]
        rw [if_neg (by
          simp only [decide_eq_true_eq, Option.some.injEq]
          exact fun hco => hq hco.symm)]
      have hfm : (s :: ss).filterMap R = p :: ss.filterMap R := by
        simp [List.filterMap_cons, hR]
      have hno : (s :: ss).filter (fun s' => (R s').isNone) =
          ss.filter (fun s' => (R s').isNone) := by
        simp [List.filter_cons, hR]
      simp only [groupSymsGo, hR]
      cases hmem : m.any (fun kv => kv.1 = p) with
      | true =>
        have hupd : dictAppend m p s =
            m.map (fun kv => if kv.1 = p then (kv.1, kv.2 ++ [s]) else kv) := by
          simp [dictAppend, hmem]
        rw [hupd, ih _ w (by rw [map_fst_update]; exact hnd)]
        have hkeys : ∀ q : List Char,
            ((m.map (fun kv => if kv.1 = p then (kv.1, kv.2 ++ [s]) else kv)).any
              (fun kv => kv.1 = q)) = m.any (fun kv => kv.1 = q) := by
          intro q
          rw [List.any_map]
          apply any_congr_mem
          intro kv _
          by_cases h : kv.1 = p <;> simp [h, Function.comp]
        have hA : (m.map (fun kv => if kv.1 = p then (kv.1, kv.2 ++ [s]) else kv)).map
            (fun kv => (kv.1, kv.2 ++ ss.filter (fun s' => R s' = some kv.1))) =
            m.map (fun kv =>
              (kv.1, kv.2 ++ (s :: ss).filter (fun s' => R s' = some kv.1))) := by
          rw [List.map_map]
          apply List.map_congr_left
          intro kv _
          simp only [Function.comp]
          by_cases h : kv.1 = p
          · simp only [if_pos h]
            show (kv.1, (kv.2 ++ [s]) ++ ss.filter (fun s' => R s' = some kv.1)) =
              (kv.1, kv.2 ++ (s :: ss).filter (fun s' => R s' = some kv.1))
            rw [h, hfil_p]
            simp [List.append_assoc]
          · simp only [if_neg h]
            show (kv.1, kv.2 ++ ss.filter (fun s' => R s' = some kv.1)) =
              (kv.1, kv.2 ++ (s :: ss).filter (fun s' => R s' = some kv.1))
            rw [hfil_ne kv.1 h]
        have hpaths : (ss.filterMap R).filter
            (fun q => !((m.map (fun kv => if kv.1 = p then (kv.1, kv.2 ++ [s]) else kv)).any
              (fun kv => kv.1 = q))) =
            ((s :: ss).filterMap R).filter (fun q => !(m.any (fun kv => kv.1 = q))) := by
          rw [hfm]
          rw [show (p :: ss.filterMap R).filter (fun q => !(m.any (fun kv => kv.1 = q))) =
            (ss.filterMap R).filter (fun q => !(m.any (fun kv => kv.1 = q))) from by
              simp only [List.filter_cons]
              rw [if_neg (by simp [hmem])]]
          exact List.filter_congr (fun q _ => by rw [hkeys q])
        rw [hA, hpaths, hno]
        refine congrArg₂ Prod.mk (congrArg₂ _ rfl ?_) rfl
        apply List.map_congr_left
        intro q hq
        have hfresh : m.any (fun kv => kv.1 = q) = false := by
          have := List.of_mem_filter (mem_firstSeen hq)
          simpa using this
        have hqp : q ≠ p := by
          intro hco
          subst hco
          rw [hmem] at hfresh
          cases hfresh
        rw [hfil_ne q hqp]
      | false =>
        have hfreshp : p ∉ m.map Prod.fst := by
          intro hco
          obtain ⟨kv, hkv, hfst⟩ := List.mem_map.mp hco
          have : m.any (fun kv => kv.1 = p) = true :=
            List.any_eq_true.mpr ⟨kv, hkv, by simp [hfst]⟩
          rw [hmem] at this
          cases this
        have hupd : dictAppend m p s = m ++ [(p, [s])] := by
          simp [dictAppend, hmem]
        have hnd' : ((m ++ [(p, [s])]).map Prod.fst).Nodup := by
          rw [List.map_append, List.nodup_append]
          refine ⟨hnd, by simp, ?_⟩
          intro a ha
          simp only [List.map_cons, List.map_nil, List.mem_cons, List.not_mem_nil, or_false]
          intro hco
          subst hco
          exact hfreshp ha
        rw [hupd, ih _ w hnd']
        have hA : (m ++ [(p, [s])]).map
            (fun kv => (kv.1, kv.2 ++ ss.filter (fun s' => R s' = some kv.1))) =
            m.map (fun kv => (kv.1, kv.2 ++ (s :: ss).filter (fun s' => R s' = some kv.1)))
              ++ [(p, (s :: ss).filter (fun s' => R s' = some p))] := by
          rw [List.map_append]
          refine congrArg₂ _ ?_ ?_
          · apply List.map_congr_left
            intro kv hkv
            have hne : kv.1 ≠ p := by
              intro hco
              exact hfreshp (hco ▸ List.mem_map.mpr ⟨kv, hkv, rfl⟩)
            rw [hfil_ne kv.1 hne]
          · simp only [List.map_cons, List.map_nil]
            rw [hfil_p]
            simp
        have hpaths : (ss.filterMap R).filter
            (fun q => !((m ++ [(p, [s])]).any (fun kv => kv.1 = q))) =
            ((ss.filterMap R).filter (fun q => !(m.any (fun kv => kv.1 = q)))).filter
              (fun y => ¬ y = p) := by
          rw [List.filter_filter]
          apply List.filter_congr
          intro q _
          rw [List.any_append]
          by_cases h : q = p
          · subst h
            simp
          · have hpf : ([(q, [s])].any fun kv => kv.1 = q) = true := by simp
            have : ([(p, [s])].any fun kv => kv.1 = q) = false := by
              simp only [List.any_cons, List.any_nil, Bool.or_false, decide_eq_false_iff_not]
              exact fun hco => h hco.symm
            simp [this, h]
        have htpaths : ((s :: ss).filterMap R).filter
            (fun q => !(m.any (fun kv => kv.1 = q))) =
            p :: (ss.filterMap R).filter (fun q => !(m.any (fun kv => kv.1 = q))) := by
          rw [hfm]
          simp only [List.filter_cons]
          rw [if_pos (by simp [hmem])]
        rw [hA, hpaths, htpaths]
        rw [show firstSeen (p :: (ss.filterMap R).filter
          (fun q => !(m.any (fun kv => kv.1 = q)))) =
          p :: (firstSeen ((ss.filterMap R).filter
            (fun q => !(m.any (fun kv => kv.1 = q))))).filter (fun y => ¬ y = p)
          from rfl]
        rw [firstSeen_filter, List.map_cons, hno]
        have hmemne : ∀ q ∈ firstSeen (((ss.filterMap R).filter
            (fun q => !(m.any (fun kv => kv.1 = q)))).filter (fun y => ¬ y = p)),
            q ≠ p := by
          intro q hq
          have := List.of_mem_filter (mem_firstSeen hq)
          simpa using this
        rw [show (firstSeen (((ss.filterMap R).filter
              (fun q => !(m.any (fun kv => kv.1 = q)))).filter (fun y => ¬ y = p))).map
              (fun q => (q, ss.filter (fun s' => R s' = some q))) =
            (firstSeen (((ss.filterMap R).filter
              (fun q => !(m.any (fun kv => kv.1 = q)))).filter (fun y => ¬ y = p))).map
              (fun q => (q, (s :: ss).filter (fun s' => R s' = some q))) from
          List.map_congr_left (fun q hq => by rw [hfil_ne q (hmemne q hq)])]
        simp [List.append_assoc]

/-! ### Insertion sort facts -/

theorem insertSorted_perm (x : List Char) : ∀ l, (insertSorted x l).Perm (x :: l) := by
  intro l
  induction l with
  | nil => exact List.Perm.refl _
  | cons y ys ih =>
    unfold insertSorted
    by_cases h : lexLt y x = true
    · rw [if_pos h]
      exact (ih.cons y).trans (List.Perm.swap x y ys)
    · rw [if_neg h]

theorem sortSyms_perm : ∀ l, (sortSyms l).Perm l := by
  intro l
  induction l with
  | nil => exact List.Perm.refl _
  | cons x xs ih =>
    unfold sortSyms
    exact (insertSorted_perm x (sortSyms xs)).trans (ih.cons x)

theorem lexLt_total : ∀ a b : List Char, lexLt a b = false → a = b ∨ lexLt b a = true := by
  intro a
  induction a with
  | nil =>
    intro b h
    cases b with
    | nil => exact Or.inl rfl
    | cons d b' => exact absurd h (by simp [lexLt])
  | cons c a ih =>
    intro b h
    cases b with
    | nil => exact Or.inr rfl
    | cons d b' =>
      unfold lexLt at h
      by_cases h1 : c.val < d.val
      · rw [if_pos h1] at h
        cases h
      · rw [if_neg h1] at h
        by_cases h2 : c = d
        · rw [if_pos h2] at h
          rcases ih b' h with rfl | hlt
          · exact Or.inl (by rw [h2])
          · refine Or.inr ?_
            unfold lexLt
            rw [if_neg (by rw [h2]; simp), if_pos h2.symm]
            exact hlt
        · refine Or.inr ?_
          have hdc : d.val < c.val := by
            have hne : c.val ≠ d.val := fun hv => h2 (Char.ext hv)
            have hle : d.val ≤ c.val := UInt32.not_lt.mp h1
            have h1' : (d.val).toNat ≤ (c.val).toNat := by
              rw [UInt32.le_def, BitVec.le_def] at hle
              exact hle
            have hne' : (d.val).toNat ≠ (c.val).toNat :=
              fun hv => hne (UInt32.toNat.inj hv).symm
            have hlt : (d.val).toNat < (c.val).toNat := lt_of_le_of_ne h1' hne'
            rw [UInt32.lt_def, BitVec.lt_def]
            exact hlt
          unfold lexLt
          rw [if_pos hdc]

theorem lexLe_of_lt {a b : List Char} (h : lexLt a b = true) : lexLe a b = true := by
  simp [lexLe, h]

theorem lexLe_of_not_lt {a b : List Char} (h : lexLt a b = false) : lexLe b a = true := by
  rcases lexLt_total a b h with rfl | hlt
  · simp [lexLe]
  · simp [lexLe, hlt]

theorem sortedLex_cons_cons {a b : List Char} {r : List (List Char)}
    (h : sortedLex (a :: b :: r) = true) : lexLe a b = true ∧ sortedLex (b :: r) = true := by
  simpa [sortedLex, Bool.and_eq_true] using h

theorem insertSorted_sorted (x : List Char) :
    ∀ l, sortedLex l = true → sortedLex (insertSorted x l) = true := by
  intro l
  induction l with
  | nil => intro _; rfl
  | cons y ys ih =>
    intro h
    have hy : sortedLex ys = true := by
      cases ys with
      | nil => rfl
      | cons z zs => exact (sortedLex_cons_cons h).2
    unfold insertSorted
    by_cases hlt : lexLt y x = true
    · rw [if_pos hlt]
      cases ys with
      | nil =>
        show sortedLex [y, x] = true
        simp [sortedLex, lexLe_of_lt hlt]
      | cons z zs =>
        have hyz : lexLe y z = true := (sortedLex_cons_cons h).1
        have hrec : sortedLex (insertSorted x (z :: zs)) = true := ih hy
        by_cases hz : lexLt z x = true
        · rw [show insertSorted x (z :: zs) = z :: insertSorted x zs from by
            simp [insertSorted, hz]] at hrec ⊢
          show (lexLe y z && sortedLex (z :: insertSorted x zs)) = true
          simp [hyz, hrec]
        · rw [show insertSorted x (z :: zs) = x :: z :: zs from by
            simp [insertSorted, hz]]
          show (lexLe y x && sortedLex (x :: z :: zs)) = true
          have hxz : lexLe x z = true := lexLe_of_not_lt (by simpa using hz)
          have : sortedLex (x :: z :: zs) = true := by
            show (lexLe x z && sortedLex (z :: zs)) = true
            simp [hxz, hy]
          simp [lexLe_of_lt hlt, this]
    · rw [if_neg hlt]
      show (lexLe x y && sortedLex (y :: ys)) = true
      have hxy : lexLe x y = true := lexLe_of_not_lt (by simpa using hlt)
      simp [hxy, h]

theorem sortSyms_sorted : ∀ l, sortedLex (sortSyms l) = true := by
  intro l
  induction l with
  | nil => rfl
  | cons x xs ih => exact insertSorted_sorted x (sortSyms xs) ih

/-! ### rewriteLine and processLines structure -/

theorem firstSeen_mem_of_mem {a : List Char} :
    ∀ {l : List (List Char)}, a ∈ l → a ∈ firstSeen l := by
  intro l
  induction l with
  | nil => intro h; exact absurd h (by simp)
  | cons x xs ih =>
    intro h
    simp only [firstSeen, List.mem_cons]
    rcases List.mem_cons.mp h with rfl | h
    · exact Or.inl rfl
    · by_cases hax : a = x
      · exact Or.inl hax
      · exact Or.inr (List.mem_filter.mpr ⟨ih h, by simp [hax]⟩)

theorem rewriteLine_none {sep : Char} {SRC : List (List Char)}
    {em : List (List Char × List Char)} {file : List (List Char)} {line : List Char}
    (h : searchImport line = none) : rewriteLine sep SRC em file line = none := by
  simp [rewriteLine, h]

theorem rewriteLine_spec (sep : Char) (SRC : List (List Char))
    (em : List (List Char × List Char)) (file : List (List Char)) (line g : List Char)
    (h : searchImport line = some g) :
    rewriteLine sep SRC em file line =
      some ((firstSeen ((splitSyms g).filterMap (resolveSym sep SRC em file))).map
        (fun p => buildLine (containsSub "import type".data line) p
          ((splitSyms g).filter (fun s => resolveSym sep SRC em file s = some p))),
        (splitSyms g).filter (fun s => (resolveSym sep SRC em file s).isNone)) := by
  unfold rewriteLine
  rw [h]
  dsimp only
  rw [groupSymsGo_spec (resolveSym sep SRC em file) (splitSyms g) [] [] (by simp)]
  simp [List.map_map, Function.comp]

theorem processLines_nomatch (sep : Char) (SRC : List (List Char))
    (em : List (List Char × List Char)) (file : List (List Char)) :
    ∀ (lines : List (List Char)), (∀ l ∈ lines, searchImport l = none) →
      processLines sep SRC em file lines = ⟨lines, false, []⟩ := by
  intro lines
  induction lines with
  | nil => intro _; rfl
  | cons l ls ih =>
    intro h
    simp only [processLines]
    rw [ih (fun l' hl' => h l' (by simp [hl'])), rewriteLine_none (h l (by simp))]

theorem processLines_append_nomatch (sep : Char) (SRC : List (List Char))
    (em : List (List Char × List Char)) (file : List (List Char)) :
    ∀ (pre rest : List (List Char)), (∀ l ∈ pre, searchImport l = none) →
      processLines sep SRC em file (pre ++ rest) =
        ⟨pre ++ (processLines sep SRC em file rest).newLines,
         (processLines sep SRC em file rest).modified,
         (processLines sep SRC em file rest).warnings⟩ := by
  intro pre
  induction pre with
  | nil => intro rest _; rfl
  | cons l pre ih =>
    intro rest h
    simp only [List.cons_append, processLines, List.append_eq]
    rw [ih rest (fun l' hl' => h l' (by simp [hl'])),
      rewriteLine_none (h l (by simp))]

theorem processLines_newLines_flatten (sep : Char) (SRC : List (List Char))
    (em : List (List Char × List Char)) (file : List (List Char)) :
    ∀ (lines : List (List Char)),
      (processLines sep SRC em file lines).newLines =
        (lines.map (fun l => match rewriteLine sep SRC em file l with
          | some (nl, _) => nl
          | none => [l])).flatten := by
  intro lines
  induction lines with
  | nil => rfl
  | cons l ls ih =>
    simp only [processLines, List.map_cons, List.flatten_cons]
    cases hr : rewriteLine sep SRC em file l with
    | none => simp [← ih]
    | some r =>
      obtain ⟨nl, ws⟩ := r
      simp [← ih]

theorem type_kw_split : ("import type \x7b ".data : List Char) =
    "import type".data ++ " \x7b ".data := by decide

theorem plain_kw_split : ("import \x7b ".data : List Char) =
    "import".data ++ " \x7b ".data := by decide

theorem not_type_prefixed (r : List Char) :
    ("import type".data : List Char).isPrefixOf ("import \x7b ".data ++ r) = false := by
  rw [show ("import type".data : List Char) =
    ['i', 'm', 'p', 'o', 'r', 't', ' ', 't', 'y', 'p', 'e'] from by decide]
  rw [show ("import \x7b ".data : List Char) ++ r =
    'i' :: 'm' :: 'p' :: 'o' :: 'r' :: 't' :: ' ' :: '\x7b' :: ' ' :: r from by simp]
  simp [List.isPrefixOf]

/-- Claim C3: a matched import line whose symbols all resolve is replaced by
exactly one freshly built import line per distinct target path, the lines
appearing in the order the target paths are first encountered scanning the
original symbol list left to right (`firstSeen`); each line is built from the
symbols resolving to its path, and the symbol list inside each built line is a
permutation of those symbols sorted in code-point order and comma-space
joined (`buildLine` applies `sortSyms` and intercalates `", "`). -/
theorem c3_grouping (sep : Char) (SRC : List (List Char)) (em : List (List Char × List Char))
    (file : List (List Char)) (line g : List Char) (paths : List (List Char))
    (h : searchImport line = some g)
    (hp : paths = (splitSyms g).filterMap (resolveSym sep SRC em file))
    (hall : ∀ s ∈ splitSyms g, (resolveSym sep SRC em file s).isSome = true) :
    ∃ lines, rewriteLine sep SRC em file line = some (lines, []) ∧
      lines.length = (firstSeen paths).length ∧
      lines = (firstSeen paths).map (fun p =>
        buildLine (containsSub "import type".data line) p
          ((splitSyms g).filter (fun s => resolveSym sep SRC em file s = some p))) ∧
      ∀ p ∈ firstSeen paths,
        (sortSyms ((splitSyms g).filter
            (fun s => resolveSym sep SRC em file s = some p))).Perm
          ((splitSyms g).filter (fun s => resolveSym sep SRC em file s = some p)) ∧
        sortedLex (sortSyms ((splitSyms g).filter
            (fun s => resolveSym sep SRC em file s = some p))) = true := by
  subst hp
  have hw : (splitSyms g).filter (fun s => (resolveSym sep SRC em file s).isNone) = [] := by
    rw [List.filter_eq_nil_iff]
    intro s hsin
    have hs := hall s hsin
    cases hR : resolveSym sep SRC em file s with
    | none => rw [hR] at hs; exact absurd hs (by decide)
    | some p => simp [hR]
  refine ⟨_, ?_, by simp, rfl, ?_⟩
  · rw [rewriteLine_spec sep SRC em file line g h, hw]
  · intro p _
    exact ⟨sortSyms_perm _, sortSyms_sorted _⟩

theorem c3_grouping_witness :
    searchImport ("import \x7b C, A, B \x7d from \"./imports\";\n".data) =
      some (" C, A, B ".data) ∧
    (∀ s ∈ splitSyms (" C, A, B ".data),
      (resolveSym '/' [] [("A".data, "mod".data), ("B".data, "other".data),
        ("C".data, "mod".data)] ["f.ts".data] s).isSome = true) ∧
    ∃ lines, rewriteLine '/' [] [("A".data, "mod".data), ("B".data, "other".data),
        ("C".data, "mod".data)] ["f.ts".data]
        ("import \x7b C, A, B \x7d from \"./imports\";\n".data) = some (lines, []) ∧
      lines.length = (firstSeen ((splitSyms (" C, A, B ".data)).filterMap
        (resolveSym '/' [] [("A".data, "mod".data), ("B".data, "other".data),
          ("C".data, "mod".data)] ["f.ts".data]))).length ∧
      lines = (firstSeen ((splitSyms (" C, A, B ".data)).filterMap
        (resolveSym '/' [] [("A".data, "mod".data), ("B".data, "other".data),
          ("C".data, "mod".data)] ["f.ts".data]))).map (fun p =>
        buildLine (containsSub "import type".data
            ("import \x7b C, A, B \x7d from \"./imports\";\n".data)) p
          ((splitSyms (" C, A, B ".data)).filter (fun s =>
            resolveSym '/' [] [("A".data, "mod".data), ("B".data, "other".data),
              ("C".data, "mod".data)] ["f.ts".data] s = some p))) ∧
      ∀ p ∈ firstSeen ((splitSyms (" C, A, B ".data)).filterMap
          (resolveSym '/' [] [("A".data, "mod".data), ("B".data, "other".data),
            ("C".data, "mod".data)] ["f.ts".data])),
        (sortSyms ((splitSyms (" C, A, B ".data)).filter (fun s =>
            resolveSym '/' [] [("A".data, "mod".data), ("B".data, "other".data),
              ("C".data, "mod".data)] ["f.ts".data] s = some p))).Perm
          ((splitSyms (" C, A, B ".data)).filter (fun s =>
            resolveSym '/' [] [("A".data, "mod".data), ("B".data, "other".data),
              ("C".data, "mod".data)] ["f.ts".data] s = some p)) ∧
        sortedLex (sortSyms ((splitSyms (" C, A, B ".data)).filter (fun s =>
            resolveSym '/' [] [("A".data, "mod".data), ("B".data, "other".data),
              ("C".data, "mod".data)] ["f.ts".data] s = some p))) = true :=
  ⟨by decide, by decide,
    c3_grouping '/' [] [("A".data, "mod".data), ("B".data, "other".data),
      ("C".data, "mod".data)] ["f.ts".data]
      ("import \x7b C, A, B \x7d from \"./imports\";\n".data) (" C, A, B ".data)
      ((splitSyms (" C, A, B ".data)).filterMap
        (resolveSym '/' [] [("A".data, "mod".data), ("B".data, "other".data),
          ("C".data, "mod".data)] ["f.ts".data]))
      (by decide) rfl (by decide)⟩

/-- Claim C5: on a matched import line containing an unknown symbol `u` (absent
from the export index) and a known symbol `s`, the rewriter records a warning
naming `u`, and `(u, file)` reaches the file-level diagnostic list; `u` is in
no path group (no import line is emitted for it) while `s` is in the group of
its resolved path, whose built import line appears in the output; processing
the file runs to completion (the result is still a rewritten, modified file). -/
theorem c5_unknown_symbol (sep : Char) (SRC : List (List Char))
    (em : List (List Char × List Char)) (file : List (List Char)) (line g u s t : List Char)
    (h : searchImport line = some g)
    (hu : u ∈ splitSyms g) (hun : lookupAssoc em u = none)
    (hs : s ∈ splitSyms g) (hks : lookupAssoc em s = some t) :
    ∃ lines warns, rewriteLine sep SRC em file line = some (lines, warns) ∧
      u ∈ warns ∧
      (∀ p, u ∉ (splitSyms g).filter
        (fun x => resolveSym sep SRC em file x = some p)) ∧
      s ∈ (splitSyms g).filter (fun x => resolveSym sep SRC em file x =
        some (get_relative_path sep SRC file t)) ∧
      buildLine (containsSub "import type".data line)
        (get_relative_path sep SRC file t)
        ((splitSyms g).filter (fun x => resolveSym sep SRC em file x =
          some (get_relative_path sep SRC file t))) ∈ lines ∧
      (u, file) ∈ (processLines sep SRC em file [line]).warnings ∧
      (processLines sep SRC em file [line]).modified = true := by
  have hRu : resolveSym sep SRC em file u = none := by simp [resolveSym, hun]
  have hRs : resolveSym sep SRC em file s = some (get_relative_path sep SRC file t) := by
    simp [resolveSym, hks]
  have hspec := rewriteLine_spec sep SRC em file line g h
  refine ⟨_, _, hspec, ?_, ?_, ?_, ?_, ?_, ?_⟩
  · exact List.mem_filter.mpr ⟨hu, by simp [hRu]⟩
  · intro p hmem
    have := (List.mem_filter.mp hmem).2
    rw [hRu] at this
    exact absurd this (by simp)
  · exact List.mem_filter.mpr ⟨hs, by simp [hRs]⟩
  · refine List.mem_map.mpr ⟨get_relative_path sep SRC file t, ?_, rfl⟩
    exact firstSeen_mem_of_mem (List.mem_filterMap.mpr ⟨s, hs, hRs⟩)
  · simp only [processLines, hspec]
    refine List.mem_append.mpr (Or.inl (List.mem_map.mpr ⟨u, ?_, rfl⟩))
    exact List.mem_filter.mpr ⟨hu, by simp [hRu]⟩
  · simp only [processLines, hspec]

theorem c5_unknown_symbol_witness :
    searchImport ("import \x7b Known, Ghost \x7d from \"../imports\";\n".data) =
      some (" Known, Ghost ".data) ∧
    "Ghost".data ∈ splitSyms (" Known, Ghost ".data) ∧
    lookupAssoc [("Known".data, "mod".data)] ("Ghost".data) = none ∧
    "Known".data ∈ splitSyms (" Known, Ghost ".data) ∧
    lookupAssoc [("Known".data, "mod".data)] ("Known".data) = some ("mod".data) ∧
    ∃ lines warns, rewriteLine '/' [] [("Known".data, "mod".data)] ["f.ts".data]
        ("import \x7b Known, Ghost \x7d from \"../imports\";\n".data) =
        some (lines, warns) ∧
      "Ghost".data ∈ warns ∧
      (∀ p, "Ghost".data ∉ (splitSyms (" Known, Ghost ".data)).filter
        (fun x => resolveSym '/' [] [("Known".data, "mod".data)] ["f.ts".data] x = some p)) ∧
      "Known".data ∈ (splitSyms (" Known, Ghost ".data)).filter
        (fun x => resolveSym '/' [] [("Known".data, "mod".data)] ["f.ts".data] x =
          some (get_relative_path '/' [] ["f.ts".data] ("mod".data))) ∧
      buildLine (containsSub "import type".data
          ("import \x7b Known, Ghost \x7d from \"../imports\";\n".data))
        (get_relative_path '/' [] ["f.ts".data] ("mod".data))
        ((splitSyms (" Known, Ghost ".data)).filter
          (fun x => resolveSym '/' [] [("Known".data, "mod".data)] ["f.ts".data] x =
            some (get_relative_path '/' [] ["f.ts".data] ("mod".data)))) ∈ lines ∧
      ("Ghost".data, ["f.ts".data]) ∈ (processLines '/' [] [("Known".data, "mod".data)]
        ["f.ts".data] ["import \x7b Known, Ghost \x7d from \"../imports\";\n".data]).warnings ∧
      (processLines '/' [] [("Known".data, "mod".data)] ["f.ts".data]
        ["import \x7b Known, Ghost \x7d from \"../imports\";\n".data]).modified = true :=
  ⟨by decide, by decide, by decide, by decide, by decide,
    c5_unknown_symbol '/' [] [("Known".data, "mod".data)] ["f.ts".data]
      ("import \x7b Known, Ghost \x7d from \"../imports\";\n".data)
      (" Known, Ghost ".data) ("Ghost".data) ("Known".data) ("mod".data)
      (by decide) (by decide) (by decide) (by decide) (by decide)⟩

/-- Claim C6: every replacement line built from a matched line is type-only
exactly when the original line contains the `import type` marker: when it does,
each built line starts with the type-only keyword; when it does not, each built
line starts with the plain keyword and is not type-prefixed — the flag is
computed once from the original line and shared by all groups. -/
theorem c6_type_propagation (sep : Char) (SRC : List (List Char))
    (em : List (List Char × List Char)) (file : List (List Char)) (line : List Char)
    (lines warns : List (List Char))
    (h : rewriteLine sep SRC em file line = some (lines, warns)) :
    ∀ x ∈ lines,
      (containsSub "import type".data line = true →
        ("import type \x7b ".data).isPrefixOf x = true) ∧
      (containsSub "import type".data line = false →
        ("import \x7b ".data).isPrefixOf x = true ∧
          ("import type".data).isPrefixOf x = false) := by
  unfold rewriteLine at h
  cases hsi : searchImport line with
  | none => rw [hsi] at h; exact absurd h (by simp)
  | some g =>
    rw [hsi] at h
    dsimp only at h
    obtain ⟨hl, _⟩ := Prod.mk.injEq .. ▸ (Option.some.injEq .. ▸ h)
    intro x hx
    rw [← hl] at hx
    obtain ⟨pg, _, hxeq⟩ := List.mem_map.mp hx
    have hbT : buildLine true pg.1 pg.2 = "import type \x7b ".data ++
        (List.intercalate ", ".data (sortSyms pg.2) ++ (" \x7d from ".data ++
          ('"' :: pg.1 ++ '"' :: ';' :: '\n' :: []))) := by
      simp [buildLine]
    have hbF : buildLine false pg.1 pg.2 = "import \x7b ".data ++
        (List.intercalate ", ".data (sortSyms pg.2) ++ (" \x7d from ".data ++
          ('"' :: pg.1 ++ '"' :: ';' :: '\n' :: []))) := by
      simp [buildLine]
    constructor
    · intro hty
      rw [← hxeq, hty, hbT]
      exact isPrefixOf_self_append _ _
    · intro hty
      rw [← hxeq, hty, hbF]
      exact ⟨isPrefixOf_self_append _ _, not_type_prefixed _⟩

theorem c6_type_propagation_witness :
    rewriteLine '/' [] [("A".data, "mod".data)] ["f.ts".data]
        ("import type \x7b A \x7d from \"./imports\";\n".data) =
      some (["import type \x7b A \x7d from \"./mod\";\n".data], []) ∧
    ∀ x ∈ ["import type \x7b A \x7d from \"./mod\";\n".data],
      (containsSub "import type".data
          ("import type \x7b A \x7d from \"./imports\";\n".data) = true →
        ("import type \x7b ".data).isPrefixOf x = true) ∧
      (containsSub "import type".data
          ("import type \x7b A \x7d from \"./imports\";\n".data) = false →
        ("import \x7b ".data).isPrefixOf x = true ∧
          ("import type".data).isPrefixOf x = false) :=
  ⟨by decide,
    c6_type_propagation '/' [] [("A".data, "mod".data)] ["f.ts".data]
      ("import type \x7b A \x7d from \"./imports\";\n".data)
      ["import type \x7b A \x7d from \"./mod\";\n".data] [] (by decide)⟩

/-- Claim C10: a matched import line none of whose listed symbols is in the
export index is replaced by zero import lines — the rewrite yields the empty
replacement block with every symbol warned — yet the file is treated as
modified: the surrounding lines survive with the import statement deleted,
`modified` is `true`, and `process_file` reports a write-back. -/
theorem c10_all_unknown (sep : Char) (SRC : List (List Char))
    (em : List (List Char × List Char)) (file : List (List Char))
    (pre post : List (List Char)) (line g : List Char)
    (h : searchImport line = some g)
    (hall : ∀ s ∈ splitSyms g, lookupAssoc em s = none)
    (hpre : ∀ l ∈ pre, searchImport l = none)
    (hpost : ∀ l ∈ post, searchImport l = none) :
    rewriteLine sep SRC em file line = some ([], splitSyms g) ∧
    processLines sep SRC em file (pre ++ line :: post) =
      ⟨pre ++ post, true, (splitSyms g).map (fun s => (s, file))⟩ ∧
    process_file sep SRC em file (pre ++ line :: post) = (pre ++ post, true) := by
  have hR : ∀ s ∈ splitSyms g, resolveSym sep SRC em file s = none := by
    intro s hs
    simp [resolveSym, hall s hs]
  have hfm : (splitSyms g).filterMap (resolveSym sep SRC em file) = [] :=
    List.filterMap_eq_nil_iff.mpr hR
  have hfl : (splitSyms g).filter (fun s => (resolveSym sep SRC em file s).isNone) =
      splitSyms g :=
    List.filter_eq_self.mpr (fun s hs => by simp [hR s hs])
  have h1 : rewriteLine sep SRC em file line = some ([], splitSyms g) := by
    rw [rewriteLine_spec sep SRC em file line g h, hfm, hfl]
    rfl
  have hpost' := processLines_nomatch sep SRC em file post hpost
  have h2 : processLines sep SRC em file (line :: post) =
      ⟨post, true, (splitSyms g).map (fun s => (s, file))⟩ := by
    simp only [processLines, h1, hpost']
    simp
  have hPL : processLines sep SRC em file (pre ++ line :: post) =
      ⟨pre ++ post, true, (splitSyms g).map (fun s => (s, file))⟩ := by
    rw [processLines_append_nomatch sep SRC em file pre (line :: post) hpre, h2]
  refine ⟨h1, hPL, ?_⟩
  simp [process_file, hPL]

theorem c10_all_unknown_witness :
    searchImport ("import \x7b Ghost \x7d from \"./imports\";\n".data) =
      some (" Ghost ".data) ∧
    (∀ s ∈ splitSyms (" Ghost ".data),
      lookupAssoc [("A".data, "mod".data)] s = none) ∧
    rewriteLine '/' [] [("A".data, "mod".data)] ["f.ts".data]
        ("import \x7b Ghost \x7d from \"./imports\";\n".data) =
      some ([], splitSyms (" Ghost ".data)) ∧
    processLines '/' [] [("A".data, "mod".data)] ["f.ts".data]
        (["// header\n".data] ++
          ("import \x7b Ghost \x7d from \"./imports\";\n".data) ::
            ["const x = 1;\n".data]) =
      ⟨["// header\n".data] ++ ["const x = 1;\n".data], true,
        (splitSyms (" Ghost ".data)).map (fun s => (s, ["f.ts".data]))⟩ ∧
    process_file '/' [] [("A".data, "mod".data)] ["f.ts".data]
        (["// header\n".data] ++
          ("import \x7b Ghost \x7d from \"./imports\";\n".data) ::
            ["const x = 1;\n".data]) =
      (["// header\n".data] ++ ["const x = 1;\n".data], true) :=
  ⟨by decide, by decide,
    c10_all_unknown '/' [] [("A".data, "mod".data)] ["f.ts".data]
      ["// header\n".data] ["const x = 1;\n".data]
      ("import \x7b Ghost \x7d from \"./imports\";\n".data) (" Ghost ".data)
      (by decide) (by decide) (by decide) (by decide)⟩

/-- Claim C8: a file in which no line matches the import pattern comes out of
the pass byte-identical with `modified = false` (so `process_file` performs no
write and returns the original lines) and no diagnostics; moreover in any
processed file each non-matching line is copied through unchanged, in place
(the output is the concatenation, in original order, of each line's
replacement block, a non-matching line's block being the line itself). -/
theorem c8_untouched (sep : Char) (SRC : List (List Char))
    (em : List (List Char × List Char)) (file : List (List Char))
    (lines : List (List Char))
    (h : ∀ l ∈ lines, searchImport l = none) :
    processLines sep SRC em file lines = ⟨lines, false, []⟩ ∧
    process_file sep SRC em file lines = (lines, false) ∧
    ∀ ls : List (List Char), (processLines sep SRC em file ls).newLines =
      (ls.map (fun l => match rewriteLine sep SRC em file l with
        | some (nl, _) => nl
        | none => [l])).flatten := by
  have h1 := processLines_nomatch sep SRC em file lines h
  refine ⟨h1, ?_, processLines_newLines_flatten sep SRC em file⟩
  simp [process_file, h1]

theorem c8_untouched_witness :
    (∀ l ∈ [("const x = 1;\n".data : List Char), "import x from \"./other\";\n".data],
      searchImport l = none) ∧
    processLines '/' [] [("A".data, "mod".data)] ["f.ts".data]
        [("const x = 1;\n".data : List Char), "import x from \"./other\";\n".data] =
      ⟨[("const x = 1;\n".data : List Char), "import x from \"./other\";\n".data],
        false, []⟩ ∧
    process_file '/' [] [("A".data, "mod".data)] ["f.ts".data]
        [("const x = 1;\n".data : List Char), "import x from \"./other\";\n".data] =
      ([("const x = 1;\n".data : List Char), "import x from \"./other\";\n".data],
        false) ∧
    ∀ ls : List (List Char),
      (processLines '/' [] [("A".data, "mod".data)] ["f.ts".data] ls).newLines =
        (ls.map (fun l =>
          match rewriteLine '/' [] [("A".data, "mod".data)] ["f.ts".data] l with
          | some (nl, _) => nl
          | none => [l])).flatten :=
  ⟨by decide,
    c8_untouched '/' [] [("A".data, "mod".data)] ["f.ts".data]
      [("const x = 1;\n".data : List Char), "import x from \"./other\";\n".data]
      (by decide)⟩

/-! ### The import pattern: positive matches and the `hasIQS` bound -/

theorem startsWithIQS_append (tl : List Char) :
    startsWithIQS (("imports".data ++ ['"', ';']) ++ tl) = true := by
  simp [startsWithIQS, isPrefixOf_self_append]

theorem tailOK_append (pre tl : List Char) (h : ∀ c ∈ pre, ¬ c = '\n') :
    tailOK (pre ++ "imports".data ++ '"' :: ';' :: tl) = true := by
  induction pre with
  | nil =>
    rw [List.nil_append,
      show ("imports".data : List Char) ++ '"' :: ';' :: tl =
        'i' :: ("mports".data ++ '"' :: ';' :: tl) from by
          rw [show ("imports".data : List Char) = 'i' :: "mports".data from by decide]
          simp]
    simp only [tailOK, Bool.or_eq_true]
    left
    rw [show 'i' :: ("mports".data ++ '"' :: ';' :: tl) =
      ("imports".data ++ ['"', ';']) ++ tl from by
        rw [show ("imports".data : List Char) = 'i' :: "mports".data from by decide]
        simp]
    exact startsWithIQS_append tl
  | cons c pre ih =>
    have hc : (c != '\n') = true := by simpa using h c (by simp)
    simp only [List.cons_append, tailOK, Bool.or_eq_true, Bool.and_eq_true]
    right
    exact ⟨hc, ih (fun d hd => h d (by simp [hd]))⟩

theorem tailOK_hasIQS : ∀ {cs : List Char}, tailOK cs = true → hasIQS cs = true := by
  intro cs
  induction cs with
  | nil => intro h; exact absurd h (by decide)
  | cons c cs ih =>
    intro h
    simp only [tailOK, Bool.or_eq_true, Bool.and_eq_true] at h
    simp only [hasIQS, Bool.or_eq_true]
    rcases h with h | ⟨-, h⟩
    · exact Or.inl h
    · exact Or.inr (ih h)

theorem hasIQS_suffix {xs ys : List Char} (h : xs <:+ ys) (hx : hasIQS xs = true) :
    hasIQS ys = true := by
  obtain ⟨zs, rfl⟩ := h
  induction zs with
  | nil => exact hx
  | cons z zs ih =>
    simp only [List.cons_append, hasIQS, Bool.or_eq_true]
    exact Or.inr ih

theorem dropLit_suffix : ∀ {lit cs r : List Char}, dropLit lit cs = some r → r <:+ cs := by
  intro lit
  induction lit with
  | nil =>
    intro cs r h
    simp only [dropLit, Option.some.injEq] at h
    exact h ▸ List.suffix_refl cs
  | cons c lit ih =>
    intro cs r h
    cases cs with
    | nil => exact absurd h (by simp [dropLit])
    | cons d cs =>
      simp only [dropLit] at h
      split at h
      · exact (ih h).trans (List.suffix_cons d cs)
      · cases h

theorem ws1_suffix {cs r : List Char} (h : ws1 cs = some r) : r <:+ cs := by
  cases cs with
  | nil => exact absurd h (by simp [ws1])
  | cons c cs =>
    simp only [ws1] at h
    split at h
    · cases h
      exact (List.dropWhile_suffix isPySpace).trans (List.suffix_cons c cs)
    · cases h

theorem afterKw_suffix {kw cs r : List Char} (h : afterKw kw cs = some r) : r <:+ cs := by
  simp only [afterKw, Option.bind_eq_some] at h
  obtain ⟨mid, h1, h2⟩ := h
  exact (ws1_suffix h2).trans (dropLit_suffix h1)

theorem afterOptType_suffix (cs : List Char) : afterOptType cs <:+ cs := by
  simp only [afterOptType]
  split
  · next mid h1 =>
    split
    · next r h2 => exact (ws1_suffix h2).trans (dropLit_suffix h1)
    · exact List.suffix_refl cs
  · exact List.suffix_refl cs

theorem braceGroup_suffix {cs g r : List Char} (h : braceGroup cs = some (g, r)) :
    r <:+ cs := by
  cases cs with
  | nil => exact absurd h (by simp [braceGroup])
  | cons c cs1 =>
    simp only [braceGroup] at h
    split at h
    · split at h
      · cases h
      · split at h
        · cases h
        · simp only [Option.some.injEq, Prod.mk.injEq] at h
          obtain ⟨-, rfl⟩ := h
          exact ((List.tail_suffix _).trans
            (List.dropWhile_suffix _)).trans (List.suffix_cons c cs1)
    · cases h

theorem fromClause_suffix {cs r : List Char} (h : fromClause cs = some r) : r <:+ cs := by
  simp only [fromClause, Option.bind_eq_some] at h
  obtain ⟨m1, h1, m2, h2, h3⟩ := h
  exact ((ws1_suffix h3).trans (dropLit_suffix h2)).trans (ws1_suffix h1)

theorem matchImportAt_hasIQS {cs g : List Char} (h : matchImportAt cs = some g) :
    hasIQS cs = true := by
  unfold matchImportAt at h
  cases h1 : afterKw "import".data cs with
  | none => rw [h1] at h; cases h
  | some cs1 =>
    rw [h1] at h
    dsimp only at h
    cases h2 : braceGroup (afterOptType cs1) with
    | none => rw [h2] at h; cases h
    | some gr =>
      obtain ⟨g2, cs2⟩ := gr
      rw [h2] at h
      dsimp only at h
      cases h3 : fromClause cs2 with
      | none => rw [h3] at h; cases h
      | some cs3 =>
        rw [h3] at h
        dsimp only at h
        split at h
        · split at h
          · next htk =>
            have hq : hasIQS cs3.tail = true := tailOK_hasIQS htk
            have hsuf : cs3.tail <:+ cs :=
              ((((List.tail_suffix cs3).trans (fromClause_suffix h3)).trans
                (braceGroup_suffix h2)).trans (afterOptType_suffix cs1)).trans
                (afterKw_suffix h1)
            exact hasIQS_suffix hsuf hq
          · cases h
        · cases h

theorem searchImport_hasIQS : ∀ {cs g : List Char}, searchImport cs = some g →
    hasIQS cs = true := by
  intro cs
  induction cs with
  | nil => intro g h; cases h
  | cons c cs ih =>
    intro g h
    simp only [searchImport] at h
    cases hm : matchImportAt (c :: cs) with
    | some g2 => exact matchImportAt_hasIQS hm
    | none =>
      rw [hm] at h
      simp only [hasIQS, Bool.or_eq_true]
      exact Or.inr (ih h)

theorem matchImportAt_render (isTy : Bool) (inner pre tl : List Char)
    (hin : ∀ c ∈ inner, ¬ c = '\x7d') (hine : inner ≠ [])
    (hpre : ∀ c ∈ pre, ¬ c = '\n') :
    matchImportAt (renderImportLine isTy inner (pre ++ "imports".data) tl) = some inner := by
  have h4 : fromClause (" from ".data ++
      ('"' :: ((pre ++ "imports".data) ++ '"' :: ';' :: tl))) =
      some ('"' :: ((pre ++ "imports".data) ++ '"' :: ';' :: tl)) :=
    fromClause_sp _ _ (by decide)
  have h3 : braceGroup ('\x7b' :: (inner ++ '\x7d' :: (" from ".data ++
      ('"' :: ((pre ++ "imports".data) ++ '"' :: ';' :: tl))))) =
      some (inner, " from ".data ++
        ('"' :: ((pre ++ "imports".data) ++ '"' :: ';' :: tl))) :=
    braceGroup_render _ _ hin hine
  have htk : tailOK ((pre ++ "imports".data) ++ '"' :: ';' :: tl) = true :=
    tailOK_append pre tl hpre
  cases isTy with
  | false =>
    have hsh : renderImportLine false inner (pre ++ "imports".data) tl =
        ("import".data ++ [' ']) ++ ('\x7b' :: (inner ++ '\x7d' :: (" from ".data ++
          ('"' :: ((pre ++ "imports".data) ++ '"' :: ';' :: tl))))) := by
      rw [renderImportLine,
        show ("import ".data : List Char) = "import".data ++ [' '] from by decide]
      simp
    have h1 : afterKw "import".data
        (renderImportLine false inner (pre ++ "imports".data) tl) =
        some ('\x7b' :: (inner ++ '\x7d' :: (" from ".data ++
          ('"' :: ((pre ++ "imports".data) ++ '"' :: ';' :: tl))))) := by
      rw [hsh]; exact afterKw_sp _ _ _ (by decide)
    have h2 := afterOptType_brace (inner ++ '\x7d' :: (" from ".data ++
      ('"' :: ((pre ++ "imports".data) ++ '"' :: ';' :: tl))))
    simp only [matchImportAt, h1, h2, h3, h4]
    simp
    exact ⟨rfl, by simpa using htk⟩
  | true =>
    have hsh : renderImportLine true inner (pre ++ "imports".data) tl =
        ("import".data ++ [' ']) ++ ("type ".data ++
          ('\x7b' :: (inner ++ '\x7d' :: (" from ".data ++
            ('"' :: ((pre ++ "imports".data) ++ '"' :: ';' :: tl)))))) := by
      rw [renderImportLine,
        show ("import ".data : List Char) = "import".data ++ [' '] from by decide]
      simp
    have hhead : "type ".data ++
        ('\x7b' :: (inner ++ '\x7d' :: (" from ".data ++
          ('"' :: ((pre ++ "imports".data) ++ '"' :: ';' :: tl))))) =
        't' :: ("ype ".data ++
          ('\x7b' :: (inner ++ '\x7d' :: (" from ".data ++
            ('"' :: ((pre ++ "imports".data) ++ '"' :: ';' :: tl)))))) := by
      rw [show ("type ".data : List Char) = 't' :: "ype ".data from by decide]
      simp
    have h1 : afterKw "import".data
        (renderImportLine true inner (pre ++ "imports".data) tl) =
        some ("type ".data ++
          ('\x7b' :: (inner ++ '\x7d' :: (" from ".data ++
            ('"' :: ((pre ++ "imports".data) ++ '"' :: ';' :: tl)))))) := by
      rw [hsh, hhead]
      exact afterKw_sp _ _ _ (by decide)
    have h2 : afterOptType ("type ".data ++
        ('\x7b' :: (inner ++ '\x7d' :: (" from ".data ++
          ('"' :: ((pre ++ "imports".data) ++ '"' :: ';' :: tl)))))) =
        '\x7b' :: (inner ++ '\x7d' :: (" from ".data ++
          ('"' :: ((pre ++ "imports".data) ++ '"' :: ';' :: tl)))) := by
      rw [show ("type ".data : List Char) = "type".data ++ [' '] from by decide]
      exact afterOptType_typekw _
    simp only [matchImportAt, h1, h2, h3, h4]
    simp
    exact ⟨rfl, by simpa using htk⟩

theorem searchImport_of_match {cs g : List Char} (h : matchImportAt cs = some g) :
    searchImport cs = some g := by
  cases cs with
  | nil => simp [matchImportAt, afterKw, dropLit] at h
  | cons c cs => simp [searchImport, h]

/-! ### The import pattern: negative matches -/

theorem hasIQS_exists : ∀ {cs : List Char}, hasIQS cs = true →
    ∃ a q b, isQuote q = true ∧ cs = a ++ "imports".data ++ q :: ';' :: b := by
  intro cs
  induction cs with
  | nil => intro h; exact absurd h (by decide)
  | cons c cs ih =>
    intro h
    simp only [hasIQS, Bool.or_eq_true] at h
    rcases h with h | h
    · simp only [startsWithIQS, Bool.or_eq_true] at h
      rcases h with h | h
      · obtain ⟨b, hb⟩ := List.isPrefixOf_iff_prefix.mp h
        exact ⟨[], '"', b, by decide, by rw [← hb]; simp⟩
      · obtain ⟨b, hb⟩ := List.isPrefixOf_iff_prefix.mp h
        exact ⟨[], '\'', b, by decide, by rw [← hb]; simp⟩
    · obtain ⟨a, q, b, hq, he⟩ := ih h
      exact ⟨c :: a, q, b, hq, by rw [he]; simp⟩

theorem quote_split : ∀ (u : List Char), (∀ c ∈ u, isQuote c = false) →
    ∀ {q : Char}, isQuote q = true → ∀ {a b v : List Char},
    u ++ v = a ++ q :: b → ∃ a2, a = u ++ a2 ∧ v = a2 ++ q :: b := by
  intro u
  induction u with
  | nil =>
    intro _ q hq a b v h
    exact ⟨a, by simp, by simpa using h⟩
  | cons x u ih =>
    intro hu q hq a b v h
    cases a with
    | nil =>
      simp only [List.cons_append, List.nil_append] at h
      injection h with h1 h2
      rw [h1] at hu
      rw [hu q (by simp)] at hq
      cases hq
    | cons y a =>
      simp only [List.cons_append] at h
      injection h with h1 h2
      obtain ⟨a2, ha, hv⟩ := ih (fun c hc => hu c (by simp [hc])) hq h2
      exact ⟨a2, by simp [← h1, ha], hv⟩

theorem getLast_app {xs ys : List Char} (h : ¬ ys = []) :
    (xs ++ ys).getLast? = ys.getLast? := by
  induction xs with
  | nil => rfl
  | cons x xs ih =>
    have hne : ¬ xs ++ ys = [] := by simp [h]
    cases hxy : xs ++ ys with
    | nil => exact absurd hxy hne
    | cons z t =>
      rw [List.cons_append, hxy, List.getLast?_cons_cons, ← hxy]
      exact ih

theorem quotefree_append {xs ys : List Char} (hx : ∀ c ∈ xs, isQuote c = false)
    (hy : ∀ c ∈ ys, isQuote c = false) : ∀ c ∈ xs ++ ys, isQuote c = false := by
  intro c hc
  rcases List.mem_append.mp hc with h | h
  · exact hx c h
  · exact hy c h

theorem quotefree_cons {x : Char} {xs : List Char} (hx : isQuote x = false)
    (hxs : ∀ c ∈ xs, isQuote c = false) : ∀ c ∈ x :: xs, isQuote c = false := by
  intro c hc
  rcases List.mem_cons.mp hc with rfl | h
  · exact hx
  · exact hxs c h

theorem noIQS_line {A p B : List Char}
    (hA : ∀ c ∈ A, isQuote c = false) (hAl : A.getLast? = some ' ')
    (hp : ∀ c ∈ p, isQuote c = false) (hB : ∀ c ∈ B, isQuote c = false)
    (hns : ¬ ("imports".data <:+ p)) :
    hasIQS (A ++ '"' :: (p ++ '"' :: ';' :: B)) = false := by
  by_contra hcon
  rw [Bool.not_eq_false] at hcon
  obtain ⟨a, q, b, hq, hE⟩ := hasIQS_exists hcon
  obtain ⟨a2, ha2, hv⟩ := quote_split A hA hq hE
  cases a2 with
  | nil =>
    have hAe : A = a ++ "imports".data := by simpa using ha2.symm
    rw [hAe, getLast_app (by decide)] at hAl
    rw [show ("imports".data : List Char).getLast? = some 's' from by decide] at hAl
    exact absurd hAl (by simp)
  | cons x a3 =>
    simp only [List.cons_append] at hv
    injection hv with h1 h2
    have h2b : p ++ ('"' :: ';' :: B) = a3 ++ q :: ';' :: b := by simpa using h2
    obtain ⟨a4, ha4, hv4⟩ := quote_split p hp hq h2b
    cases a4 with
    | nil =>
      simp only [List.append_nil] at ha4
      subst ha4
      have ha2b : a ++ "imports".data = (A ++ ['"']) ++ a3 := by
        rw [ha2, ← h1]; simp
      rcases List.append_eq_append_iff.mp ha2b with ⟨m, hm1, hm2⟩ | ⟨m, hm1, hm2⟩
      · cases m with
        | nil =>
          simp only [List.nil_append] at hm2
          exact hns (hm2 ▸ List.suffix_refl _)
        | cons w m2 =>
          have hlast : (w :: m2).getLast? = some '"' := by
            have := congrArg List.getLast? hm1
            rw [getLast_app (by decide), getLast_app (by simp)] at this
            simpa using this.symm
          have hqm : '"' ∈ w :: m2 := mem_of_getLast?_eq hlast
          have : '"' ∈ ("imports".data : List Char) := by
            rw [hm2]
            rcases List.mem_cons.mp hqm with h | h
            · rw [h]; exact List.mem_cons_self _ _
            · exact List.mem_cons_of_mem _ (List.mem_append.mpr (Or.inl h))
          exact absurd this (by decide)
      · exact hns ⟨m, hm2.symm⟩
    | cons y a5 =>
      simp only [List.cons_append] at hv4
      injection hv4 with h3 h4
      cases a5 with
      | nil =>
        injection h4 with h5 h6
        rw [← h5] at hq
        exact absurd hq (by decide)
      | cons z a6 =>
        simp only [List.cons_append] at h4
        injection h4 with h5 h6
        have hqB : q ∈ B := by
          rw [h6]
          exact List.mem_append.mpr (Or.inr (by simp))
        rw [hB q hqB] at hq
        cases hq

theorem render_split (isTy : Bool) (inner path tl : List Char) :
    renderImportLine isTy inner path tl =
      (("import ".data ++ (if isTy then "type ".data else []) ++
        '\x7b' :: inner ++ ['\x7d']) ++ " from ".data) ++
        '"' :: (path ++ '"' :: ';' :: tl) := by
  cases isTy <;> simp [renderImportLine]

theorem quotefree_optType (isTy : Bool) :
    ∀ c ∈ (if isTy then "type ".data else ([] : List Char)), isQuote c = false := by
  cases isTy <;> decide

theorem searchImport_render_none (isTy : Bool) (inner path tl : List Char)
    (hin : ∀ c ∈ inner, isQuote c = false)
    (hpa : ∀ c ∈ path, isQuote c = false)
    (htl : ∀ c ∈ tl, isQuote c = false)
    (hns : ¬ ("imports".data <:+ path)) :
    searchImport (renderImportLine isTy inner path tl) = none := by
  cases hs : searchImport (renderImportLine isTy inner path tl) with
  | none => rfl
  | some g =>
    exfalso
    have hIQ := searchImport_hasIQS hs
    rw [render_split] at hIQ
    have hA : ∀ c ∈ (("import ".data ++ (if isTy then "type ".data else []) ++
        '\x7b' :: inner ++ ['\x7d']) ++ " from ".data), isQuote c = false := by
      apply quotefree_append
      · apply quotefree_append
        · apply quotefree_append
          · apply quotefree_append
            · decide
            · exact quotefree_optType isTy
          · apply quotefree_cons
            · decide
            · exact hin
        · decide
      · decide
    have hAl : (("import ".data ++ (if isTy then "type ".data else []) ++
        '\x7b' :: inner ++ ['\x7d']) ++ " from ".data).getLast? = some ' ' := by
      rw [getLast_app (show ¬ (" from ".data : List Char) = [] from by decide)]
      decide
    rw [noIQS_line hA hAl hpa htl hns] at hIQ
    cases hIQ

/-- Claim C4 counterexample: the line `import \x7b X \x7d from "imports/util";`
is a well-formed brace-import from a module path that contains the literal
segment `imports`, yet the rewriter's pattern does not match it: the regex
requires the path to end with `imports` immediately before the closing quote
and semicolon, so a path merely containing the segment is not recognized. -/
theorem c4_counterexample :
    ("import \x7b X \x7d from \"imports/util\";\n".data =
      renderImportLine false (" X ".data) ("imports/util".data) ['\n']) ∧
    containsSub "imports".data ("import \x7b X \x7d from \"imports/util\";\n".data) = true ∧
    searchImport ("import \x7b X \x7d from \"imports/util\";\n".data) = none := by
  decide

/-- Claim C4 (amended): for a well-formed import line (brace-delimited nonempty
symbol list, optional type-only keyword, quoted path, terminating semicolon)
the File Rewriter's pattern matches exactly when the quoted module path ends
with the literal segment `imports`: if it does, the search succeeds and
captures the symbol list; if it does not — even if `imports` occurs elsewhere
in the path — no position of the line matches. -/
theorem c4_amended (isTy : Bool) (inner path tl : List Char)
    (hine : ¬ inner = []) (hinb : ∀ c ∈ inner, ¬ c = '\x7d')
    (hinq : ∀ c ∈ inner, isQuote c = false)
    (hpa : ∀ c ∈ path, isQuote c = false ∧ ¬ c = '\n')
    (htl : ∀ c ∈ tl, isQuote c = false) :
    (("imports".data <:+ path) →
      searchImport (renderImportLine isTy inner path tl) = some inner) ∧
    (¬ ("imports".data <:+ path) →
      searchImport (renderImportLine isTy inner path tl) = none) := by
  constructor
  · intro hsuf
    obtain ⟨pre, rfl⟩ := hsuf
    exact searchImport_of_match (matchImportAt_render isTy inner pre tl hinb hine
      (fun c hc => (hpa c (List.mem_append.mpr (Or.inl hc))).2))
  · intro hns
    exact searchImport_render_none isTy inner path tl hinq
      (fun c hc => (hpa c hc).1) htl hns

theorem c4_amended_witness :
    (¬ (" X ".data : List Char) = []) ∧
    (∀ c ∈ (" X ".data : List Char), ¬ c = '\x7d') ∧
    (∀ c ∈ (" X ".data : List Char), isQuote c = false) ∧
    (∀ c ∈ ("./imports".data : List Char), isQuote c = false ∧ ¬ c = '\n') ∧
    (∀ c ∈ (['\n'] : List Char), isQuote c = false) ∧
    ((("imports".data : List Char) <:+ "./imports".data) →
      searchImport (renderImportLine false (" X ".data) ("./imports".data) ['\n']) =
        some (" X ".data)) ∧
    ((¬ (("imports".data : List Char) <:+ "./imports".data)) →
      searchImport (renderImportLine false (" X ".data) ("./imports".data) ['\n']) =
        none) := by
  refine ⟨by decide, by decide, by decide, by decide, by decide, ?_, ?_⟩
  · exact (c4_amended false (" X ".data) ("./imports".data) ['\n'] (by decide) (by decide)
      (by decide) (by decide) (by decide)).1
  · exact (c4_amended false (" X ".data) ("./imports".data) ['\n'] (by decide) (by decide)
      (by decide) (by decide) (by decide)).2

/-! ### Second-pass stability helpers -/

theorem lookupAssoc_mem : ∀ {em : List (List Char × List Char)} {k v : List Char},
    lookupAssoc em k = some v → (k, v) ∈ em := by
  intro em
  induction em with
  | nil => intro k v h; cases h
  | cons kv m ih =>
    intro k v h
    simp only [lookupAssoc] at h
    split at h
    · next he =>
      cases h
      exact List.mem_cons.mpr (Or.inl (by rw [← he]))
    · exact List.mem_cons.mpr (Or.inr (ih h))

theorem mem_splitOnChar : ∀ {sep : Char} {cs : List Char} {s : List Char},
    s ∈ splitOnChar sep cs → ∀ c ∈ s, c ∈ cs := by
  intro sep cs
  induction cs with
  | nil =>
    intro s hs c hc
    simp only [splitOnChar, List.mem_singleton] at hs
    subst hs
    cases hc
  | cons d cs ih =>
    intro s hs c hc
    simp only [splitOnChar] at hs
    split at hs
    · rcases List.mem_cons.mp hs with rfl | hs
      · cases hc
      · exact List.mem_cons_of_mem _ (ih hs c hc)
    · cases hsp : splitOnChar sep cs with
      | nil => exact absurd hsp (splitOnChar_ne_nil sep cs)
      | cons g gs =>
        rw [hsp] at hs
        rcases List.mem_cons.mp hs with rfl | hs
        · rcases List.mem_cons.mp hc with rfl | hc
          · exact List.mem_cons_self _ _
          · refine List.mem_cons_of_mem _ (ih ?_ c hc)
            rw [hsp]
            exact List.mem_cons_self _ _
        · refine List.mem_cons_of_mem _ (ih ?_ c hc)
          rw [hsp]
          exact List.mem_cons_of_mem _ hs

theorem pyStrip_subset {s : List Char} {c : Char} (h : c ∈ pyStrip s) : c ∈ s := by
  simp only [pyStrip, List.mem_reverse] at h
  have h2 : c ∈ (s.dropWhile isPySpace).reverse := (List.dropWhile_sublist _).subset h
  rw [List.mem_reverse] at h2
  exact (List.dropWhile_sublist _).subset h2

theorem splitSyms_subset {g s : List Char} (hs : s ∈ splitSyms g) : ∀ c ∈ s, c ∈ g := by
  intro c hc
  simp only [splitSyms, List.mem_filter, List.mem_map] at hs
  obtain ⟨⟨s0, hs0, rfl⟩, -⟩ := hs
  exact mem_splitOnChar hs0 c (pyStrip_subset hc)

theorem rewriteLine_none_search {sep : Char} {SRC : List (List Char)}
    {em : List (List Char × List Char)} {file : List (List Char)} {l : List Char}
    (h : rewriteLine sep SRC em file l = none) : searchImport l = none := by
  cases hsi : searchImport l with
  | none => rfl
  | some g =>
    rw [rewriteLine_spec sep SRC em file l g hsi] at h
    cases h

theorem processLines_not_modified (sep : Char) (SRC : List (List Char))
    (em : List (List Char × List Char)) (file : List (List Char)) :
    ∀ (ls : List (List Char)), (processLines sep SRC em file ls).modified = false →
      ∀ l ∈ ls, searchImport l = none := by
  intro ls
  induction ls with
  | nil => intro _ l hl; cases hl
  | cons l0 ls ih =>
    intro h l hl
    simp only [processLines] at h
    cases hr : rewriteLine sep SRC em file l0 with
    | some r =>
      obtain ⟨nl, ws⟩ := r
      rw [hr] at h
      cases h
    | none =>
      rw [hr] at h
      dsimp only at h
      rcases List.mem_cons.mp hl with rfl | hl
      · exact rewriteLine_none_search hr
      · exact ih h l hl

theorem buildLine_eq_render (isTy : Bool) (path : List Char) (syms : List (List Char)) :
    buildLine isTy path syms =
      renderImportLine isTy
        (' ' :: (List.intercalate ", ".data (sortSyms syms) ++ [' '])) path ['\n'] := by
  cases isTy <;> simp [buildLine, renderImportLine]

theorem built_line_no_match (sep : Char) (SRC : List (List Char))
    (em : List (List Char × List Char)) (file : List (List Char))
    (hres : ∀ kv ∈ em, (∀ c ∈ get_relative_path sep SRC file kv.2, isQuote c = false) ∧
      ¬ ("imports".data <:+ get_relative_path sep SRC file kv.2))
    {g p : List Char}
    (hgq : ∀ c ∈ g, isQuote c = false)
    (hp : p ∈ (splitSyms g).filterMap (resolveSym sep SRC em file))
    (isTy : Bool) :
    searchImport (buildLine isTy p
      ((splitSyms g).filter (fun s => resolveSym sep SRC em file s = some p))) = none := by
  obtain ⟨s, hs, hR⟩ := List.mem_filterMap.mp hp
  simp only [resolveSym, Option.map_eq_some'] at hR
  obtain ⟨t, ht, hpe⟩ := hR
  have hresp := hres (s, t) (lookupAssoc_mem ht)
  subst hpe
  rw [buildLine_eq_render]
  apply searchImport_render_none
  · intro c hc
    rcases List.mem_cons.mp hc with rfl | hc
    · rfl
    · rcases List.mem_append.mp hc with hc | hc
      · rcases mem_intercalate hc with hc | ⟨q2, hq2, hcq⟩
        · have : c = ',' ∨ c = ' ' := by simpa using hc
          rcases this with rfl | rfl <;> rfl
        · have hq2f : q2 ∈ (splitSyms g).filter (fun s2 =>
              resolveSym sep SRC em file s2 = some (get_relative_path sep SRC file t)) :=
            (sortSyms_perm _).mem_iff.mp hq2
          exact hgq c (splitSyms_subset (List.mem_filter.mp hq2f).1 c hcq)
      · have : c = ' ' := by simpa using hc
        rw [this]; rfl
  · exact hresp.1
  · intro c hc
    have : c = '\n' := by simpa using hc
    rw [this]; rfl
  · exact hresp.2

theorem processLines_second_none (sep : Char) (SRC : List (List Char))
    (em : List (List Char × List Char)) (file : List (List Char))
    (lines : List (List Char))
    (hres : ∀ kv ∈ em, (∀ c ∈ get_relative_path sep SRC file kv.2, isQuote c = false) ∧
      ¬ ("imports".data <:+ get_relative_path sep SRC file kv.2))
    (hq : ∀ l ∈ lines, ∀ g, searchImport l = some g → ∀ c ∈ g, isQuote c = false) :
    ∀ l2 ∈ (processLines sep SRC em file lines).newLines, searchImport l2 = none := by
  intro l2 hl2
  rw [processLines_newLines_flatten, List.mem_flatten] at hl2
  obtain ⟨blk, hblk, hl2b⟩ := hl2
  rw [List.mem_map] at hblk
  obtain ⟨l, hl, rfl⟩ := hblk
  cases hsi : searchImport l with
  | none =>
    rw [rewriteLine_none hsi] at hl2b
    have : l2 = l := by simpa using hl2b
    rw [this]
    exact hsi
  | some g =>
    rw [rewriteLine_spec sep SRC em file l g hsi] at hl2b
    dsimp only at hl2b
    obtain ⟨p, hpf, rfl⟩ := List.mem_map.mp hl2b
    exact built_line_no_match sep SRC em file hres (hq l hl g hsi) (mem_firstSeen hpf) _

/-- Claim C7 counterexample: with the export index mapping `X` to the declared
path `./sub/imports`, a first pass rewrites `import \x7b X \x7d from
"./imports";` into an import of `"./sub/imports"`, whose path again ends in
the segment `imports`; the second pass therefore matches it again and still
reports a modification. -/
theorem c7_counterexample :
    (process_file '/' [] [("X".data, "./sub/imports".data)] ["f.ts".data]
      ["import \x7b X \x7d from \"./imports\";\n".data]).2 = true ∧
    (process_file '/' [] [("X".data, "./sub/imports".data)] ["f.ts".data]
      (process_file '/' [] [("X".data, "./sub/imports".data)] ["f.ts".data]
        ["import \x7b X \x7d from \"./imports\";\n".data]).1).2 = true := by
  decide

/-- Claim C7 (amended): running the pass twice produces no further change on
the second pass, provided no export-index entry resolves to a relative path
that itself ends with the barrel segment `imports` (and resolved paths and
matched symbol lists are quote-free): every line the first pass emits — an
untouched non-matching line or a freshly built import of a resolved path — no
longer matches the pattern, so the second pass reports no modification and
returns the file byte-identical. Without that proviso the statement fails
(`c7_counterexample`). -/
theorem c7_amended (sep : Char) (SRC : List (List Char))
    (em : List (List Char × List Char)) (file : List (List Char))
    (lines : List (List Char))
    (hres : ∀ kv ∈ em, (∀ c ∈ get_relative_path sep SRC file kv.2, isQuote c = false) ∧
      ¬ ("imports".data <:+ get_relative_path sep SRC file kv.2))
    (hq : ∀ l ∈ lines, ∀ g, searchImport l = some g → ∀ c ∈ g, isQuote c = false) :
    process_file sep SRC em file (process_file sep SRC em file lines).1 =
      ((process_file sep SRC em file lines).1, false) := by
  have hsecond := processLines_second_none sep SRC em file lines hres hq
  by_cases hm : (processLines sep SRC em file lines).modified
  · have h1 : process_file sep SRC em file lines =
        ((processLines sep SRC em file lines).newLines, true) := by
      simp [process_file, hm]
    rw [h1]
    have h2 := processLines_nomatch sep SRC em file _ hsecond
    simp [process_file, h2]
  · have hall : ∀ l ∈ lines, searchImport l = none :=
      processLines_not_modified sep SRC em file lines (by simpa using hm)
    have h0 := processLines_nomatch sep SRC em file lines hall
    have h1 : process_file sep SRC em file lines = (lines, false) := by
      simp [process_file, h0]
    rw [h1]
    simp [process_file, h0]

theorem c7_amended_witness :
    (∀ kv ∈ [(("X".data : List Char), ("mod".data : List Char))],
      (∀ c ∈ get_relative_path '/' [] ["f.ts".data] kv.2, isQuote c = false) ∧
      ¬ ("imports".data <:+ get_relative_path '/' [] ["f.ts".data] kv.2)) ∧
    process_file '/' [] [("X".data, "mod".data)] ["f.ts".data]
        (process_file '/' [] [("X".data, "mod".data)] ["f.ts".data]
          ["import \x7b X \x7d from \"./imports\";\n".data]).1 =
      ((process_file '/' [] [("X".data, "mod".data)] ["f.ts".data]
          ["import \x7b X \x7d from \"./imports\";\n".data]).1, false) :=
  ⟨by decide,
    c7_amended '/' [] [("X".data, "mod".data)] ["f.ts".data]
      ["import \x7b X \x7d from \"./imports\";\n".data] (by decide)
      (by
        intro l hl g hg
        have hl0 : l = "import \x7b X \x7d from \"./imports\";\n".data := by
          simpa using hl
        subst hl0
        rw [show searchImport ("import \x7b X \x7d from \"./imports\";\n".data) =
          some (" X ".data) from by decide] at hg
        injection hg with hg2
        rw [← hg2]
        decide)⟩
